import Mathlib

/-! Goophr: concierge (feeder, query) and librarian (index)

A shallow embedding of the Go sources

* `concierge/api/feeder.go`  (shard router, line store, document tokenizer, feed handler),
* `concierge/api/query.go`   (scatter-gather merge and ranking),
* `librarian/api/index.go`   (token catalog),
* `librarian/common/helpers.go` (method check),

followed by the theorems about them.

Conventions of the embedding.

* A Go `string` is a sequence of bytes: `GoString := List UInt8`.
* A Go `int` is an `Int`; the one place where arithmetic is done on values that
  come from outside (the score sum of `getResultsMap`) wraps to 64 bits with
  `wrapInt`.  The counters `lin`, `index` and `Count` start at zero and grow by
  one per stored item, so they stay far below `2^63` and are not wrapped.
* A Go `map` is a key-unique association list `GoMap`; the unspecified order
  of `range` over a map is a parameter `RangeOrder` (any permutation).
* A goroutine that owns a store is a step function on the store value; a
  channel that is only written is the list of the values sent, in order; a
  channel that is only read is the list of the values that will arrive.
* A run-time panic is `Except.error`.
* A post of the index poster is taken to reach its librarian and to be
  answered; what the librarian decodes is the JSON round trip of what was
  encoded; the order in which concurrent posts arrive is left open.
-/

namespace Goophr

/-! ## Strings -/

/-- Go strings are immutable byte sequences. -/
abbrev GoString := List UInt8

/-- The bytes (UTF-8) of a string literal of the source. -/
def lit (s : String) : GoString := s.data.flatMap String.utf8EncodeChar

/-! ## Machine integers -/

/-- Two's complement wrap of an integer into the range of a 64 bit Go `int`. -/
def wrapInt (x : Int) : Int := (x + 2 ^ 63) % 2 ^ 64 - 2 ^ 63

/-- Go `a + b` on `int`. -/
def goAdd (a b : Int) : Int := wrapInt (a + b)

/-- The values a 64 bit Go `int` can hold. -/
def inIntRange (x : Int) : Prop := -(2 ^ 63) ≤ x ∧ x < 2 ^ 63

instance (x : Int) : Decidable (inIntRange x) := by
  unfold inIntRange; infer_instance

/-! ## Maps -/

/-- A Go map: finitely many entries, at most one per key. -/
structure GoMap (κ ν : Type) where
  entries : List (κ × ν)
  nodup : (entries.map Prod.fst).Nodup
  deriving DecidableEq

namespace GoMap

variable {κ ν : Type}

/-- The map literal `map[K]V{}`. -/
def empty : GoMap κ ν := ⟨[], List.nodup_nil⟩

/-- The keys of the map. -/
def keys (m : GoMap κ ν) : List κ := m.entries.map Prod.fst

/-- Go `len(m)`. -/
def size (m : GoMap κ ν) : Nat := m.entries.length

/-- Go `v, exists := m[k]`. -/
def get? [DecidableEq κ] (m : GoMap κ ν) (k : κ) : Option ν :=
  (m.entries.find? (fun e => decide (e.1 = k))).map Prod.snd

/-- Go `m[k]`: the zero value of the element type when the key is absent. -/
def getD [DecidableEq κ] (m : GoMap κ ν) (k : κ) (zero : ν) : ν :=
  (m.get? k).getD zero

/-- Go `m[k] = v`. -/
def set [DecidableEq κ] (m : GoMap κ ν) (k : κ) (v : ν) : GoMap κ ν :=
  ⟨(k, v) :: m.entries.filter (fun e => decide (e.1 ≠ k)), by
    rw [List.map_cons, List.nodup_cons]
    constructor
    · intro hk
      rcases List.mem_map.1 hk with ⟨e, he, hek⟩
      have := (List.mem_filter.1 he).2
      simp at this
      exact this hek
    · exact m.nodup.sublist ((List.filter_sublist m.entries).map Prod.fst)⟩

end GoMap

/-- The order in which `range` visits a map is not specified by Go: any
enumeration of the entries, each exactly once. -/
structure RangeOrder (κ ν : Type) where
  iter : List (κ × ν) → List (κ × ν)
  perm : ∀ l, (iter l).Perm l

/-- The enumeration that visits the entries as stored. -/
def RangeOrder.stored (κ ν : Type) : RangeOrder κ ν := ⟨id, fun l => List.Perm.refl l⟩

/-- The enumeration that visits the entries in the opposite order. -/
def RangeOrder.reversed (κ ν : Type) : RangeOrder κ ν :=
  ⟨List.reverse, fun l => List.reverse_perm l⟩

/-- Go `for k, v := range m`. -/
def GoMap.range {κ ν : Type} (ρ : RangeOrder κ ν) (m : GoMap κ ν) : List (κ × ν) :=
  ρ.iter m.entries

/-! ## The Go standard library functions called by the sources

`unicode/utf8`, `unicode`, `strings` and `fmt` are not part of the repository;
they are written here after their documentation. -/

namespace utf8

/-- Go `utf8.RuneError`. -/
def RuneError : Nat := 0xFFFD

/-- The length of the encoding announced by a lead byte and the range accepted
for the second byte; `none` for a byte that starts no multi-byte encoding. -/
def leadInfo (p0 : Nat) : Option (Nat × Nat × Nat) :=
  if 0xC2 ≤ p0 ∧ p0 ≤ 0xDF then some (2, 0x80, 0xBF)
  else if p0 = 0xE0 then some (3, 0xA0, 0xBF)
  else if p0 = 0xED then some (3, 0x80, 0x9F)
  else if 0xE1 ≤ p0 ∧ p0 ≤ 0xEF then some (3, 0x80, 0xBF)
  else if p0 = 0xF0 then some (4, 0x90, 0xBF)
  else if 0xF1 ≤ p0 ∧ p0 ≤ 0xF3 then some (4, 0x80, 0xBF)
  else if p0 = 0xF4 then some (4, 0x80, 0x8F)
  else none

/-- Go `utf8.DecodeRuneInString`: the first rune of `p` and its width in bytes;
`(RuneError, 1)` for an invalid encoding and `(RuneError, 0)` for the empty
string. -/
def DecodeRune (p : GoString) : Nat × Nat :=
  match p with
  | [] => (RuneError, 0)
  | p0 :: rest =>
    if p0.toNat < 0x80 then (p0.toNat, 1)
    else
      match leadInfo p0.toNat with
      | none => (RuneError, 1)
      | some (sz, lo, hi) =>
        if rest.length + 1 < sz then (RuneError, 1)
        else
          let b1 := (rest.getD 0 0).toNat
          let b2 := (rest.getD 1 0).toNat
          let b3 := (rest.getD 2 0).toNat
          if b1 < lo ∨ hi < b1 then (RuneError, 1)
          else if sz ≤ 2 then ((p0.toNat % 0x20) * 0x40 + b1 % 0x40, 2)
          else if b2 < 0x80 ∨ 0xBF < b2 then (RuneError, 1)
          else if sz ≤ 3 then
            ((p0.toNat % 0x10) * 0x1000 + (b1 % 0x40) * 0x40 + b2 % 0x40, 3)
          else if b3 < 0x80 ∨ 0xBF < b3 then (RuneError, 1)
          else
            ((p0.toNat % 0x08) * 0x40000 + (b1 % 0x40) * 0x1000 + (b2 % 0x40) * 0x40
              + b3 % 0x40, 4)

/-- The runes of a string with the bytes each one occupies, as visited by
`for _, r := range s`; `fuel` bounds the number of runes. -/
def runesAux : Nat → GoString → List (Nat × GoString)
  | 0, _ => []
  | fuel + 1, s =>
    match s with
    | [] => []
    | b :: rest =>
      let d := DecodeRune (b :: rest)
      (d.1, b :: rest.take (d.2 - 1)) :: runesAux fuel (rest.drop (d.2 - 1))

/-- The runes of a string; a rune takes at least one byte, so the length of
the string is enough fuel (`runes_bytes`). -/
def runes (s : GoString) : List (Nat × GoString) := runesAux s.length s

end utf8

namespace unicode

/-- Go `unicode.IsSpace`: the code points with the property White_Space. -/
def IsSpace (r : Nat) : Bool :=
  (0x09 ≤ r && r ≤ 0x0D) || r = 0x20 || r = 0x85 || r = 0xA0 || r = 0x1680 ||
  (0x2000 ≤ r && r ≤ 0x200A) || r = 0x2028 || r = 0x2029 || r = 0x202F || r = 0x205F ||
  r = 0x3000

end unicode

namespace strings

/-- The bytes of a sequence of runes. -/
def bytesOf (rs : List (Nat × GoString)) : GoString := rs.flatMap Prod.snd

/-- Go `strings.Split(s, sep)` for a separator of one byte: the substrings
between the occurrences of the separator, one more than there are
occurrences. -/
def Split (s : GoString) (sep : UInt8) : List GoString := s.splitOn sep

/-- Go `strings.TrimSpace`: `s` without its leading and trailing white space
runes. -/
def TrimSpace (s : GoString) : GoString :=
  bytesOf
    ((((utf8.runes s).dropWhile (fun r => unicode.IsSpace r.1)).reverse.dropWhile
      (fun r => unicode.IsSpace r.1)).reverse)

/-- Go `strings.Fields`: the maximal runs of runes of `s` that are not white
space. -/
def Fields (s : GoString) : List GoString :=
  (((utf8.runes s).splitOnP (fun r => unicode.IsSpace r.1)).filter
    (fun w => !w.isEmpty)).map bytesOf

end strings

namespace encodingJson

/-- The bytes of U+FFFD, the replacement character. -/
def replacement : GoString := [0xEF, 0xBF, 0xBD]

/-- The Go string a decoder of `encoding/json` reads back from what
`json.Marshal` writes for the Go string `s`.  The encoder walks the runes of
`s`; a byte that is not valid UTF-8 (`RuneError` of width 1) is written as
the escape of U+FFFD, every other rune is written so that it is read back
unchanged. -/
def roundTrip (s : GoString) : GoString :=
  (utf8.runes s).flatMap
    (fun r => if r.1 = utf8.RuneError ∧ r.2.length = 1 then replacement else r.2)

end encodingJson

namespace fmt

/-- The decimal digit `d` as a byte. -/
def digitByte (d : Nat) : UInt8 := UInt8.ofNat (48 + d)

/-- The decimal digits of `n`, most significant first; `fuel` bounds their
number. -/
def natDigits : Nat → Nat → GoString
  | 0, _ => []
  | fuel + 1, n =>
    if n < 10 then [digitByte n] else natDigits fuel (n / 10) ++ [digitByte (n % 10)]

/-- The number written by a sequence of decimal digits. -/
def digitsValue (bs : GoString) : Nat := bs.foldl (fun a b => a * 10 + (b.toNat - 48)) 0

/-- The verb `%d` on a Go `int`. -/
def formatInt (i : Int) : GoString :=
  if i < 0 then '-'.toUInt8 :: natDigits (i.natAbs + 1) i.natAbs
  else natDigits (i.toNat + 1) i.toNat

end fmt

namespace sort

/-- Go `sort.Sort(sort.Reverse(sort.IntSlice(scores)))`: the same integers in
descending order. -/
def SortReverseInts (scores : List Int) : List Int :=
  scores.insertionSort (fun a b => a ≥ b)

end sort

namespace http

/-- The part of `*http.Request` the handlers read. -/
structure Request where
  Method : GoString
  Body : GoString

/-- What has been written to an `http.ResponseWriter`: the status code, once
the header has been written, and the body so far. -/
structure ResponseWriter where
  status : Option Nat
  body : GoString
  deriving DecidableEq

/-- A response writer nothing has been written to. -/
def ResponseWriter.fresh : ResponseWriter := ⟨none, []⟩

/-- Go `w.WriteHeader(code)`; only the first call sets the status. -/
def ResponseWriter.WriteHeader (w : ResponseWriter) (code : Nat) : ResponseWriter :=
  match w.status with
  | none => { w with status := some code }
  | some _ => w

/-- Go `w.Write(b)`; writes the header with status 200 when it has not been
written yet. -/
def ResponseWriter.Write (w : ResponseWriter) (b : GoString) : ResponseWriter :=
  { status := some (w.status.getD 200), body := w.body ++ b }

def StatusMethodNotAllowed : Nat := 405

def StatusInternalServerError : Nat := 500

end http

/-! ## librarian/common/helpers.go -/

namespace Common

/-- Go `SignalIfMethodNotAllowed` of `librarian/common/helpers.go`.  The
concierge handlers call the function of the same name of their own package
`concierge/common`, whose file is not among the sources; the two services
share this helper. -/
def SignalIfMethodNotAllowed (w : http.ResponseWriter) (r : http.Request) (method : GoString) :
    http.ResponseWriter × Bool :=
  let notAllowed := decide (r.Method ≠ method)
  if notAllowed then
    let w := w.WriteHeader http.StatusMethodNotAllowed
    let w := w.Write (lit "\x7b\"code\": 405, \"msg\": \"Method Not Allowed.\"\x7d")
    (w, notAllowed)
  else (w, notAllowed)

end Common

/-! ## Run-time panics -/

/-- The run-time panics the embedded code can raise. -/
inductive Panic where
  | indexOutOfRange
  | nilDereference
  deriving DecidableEq, Repr

deriving instance DecidableEq for Except

/-! ## concierge/api: configuration (query.go) -/

namespace Concierge

/-- The three environment values read by `init` (`LIB_A_M`, `LIB_N_Z`,
`LIB_OTHERS`). -/
structure Env where
  LIB_A_M : GoString
  LIB_N_Z : GoString
  LIB_OTHERS : GoString

/-- The package variable `librarianEndpoints` after `init` has run. -/
def librarianEndpoints (env : Env) : GoMap GoString GoString :=
  ((GoMap.empty.set (lit "a-m") env.LIB_A_M).set (lit "n-z") env.LIB_N_Z).set (lit "*")
    env.LIB_OTHERS

/-! ## concierge/api/feeder.go: shard router -/

/-- Go `getTokIndexer`.  `tok[0]` is the first byte of the token and panics
when the token is empty. -/
def getTokIndexer (env : Env) (tok : GoString) : Except Panic GoString :=
  match tok with
  | [] => .error Panic.indexOutOfRange
  | t :: _ =>
    let indexerURL := (librarianEndpoints env).getD (lit "*") []
    let indexerURL :=
      if t.toNat ≥ 'a'.toNat ∧ t.toNat ≤ 'm'.toNat then
        (librarianEndpoints env).getD (lit "a-m") []
      else if t.toNat ≥ 'n'.toNat ∧ t.toNat ≤ 'z'.toNat then
        (librarianEndpoints env).getD (lit "n-z") []
      else indexerURL
    .ok (indexerURL ++ lit "/index")

/-! ## concierge/api/feeder.go: data -/

structure payload where
  URL : GoString
  Title : GoString
  deriving DecidableEq

structure document where
  Doc : GoString
  Title : GoString
  DocID : GoString
  URL : GoString
  deriving DecidableEq

structure token where
  Line : GoString
  Token : GoString
  Title : GoString
  DocID : GoString
  LIndex : Int
  Index : Int
  deriving DecidableEq

structure lMeta where
  LIndex : Int
  DocID : GoString
  Line : GoString
  deriving DecidableEq

structure lineProcessData where
  LineIndex : Int
  Line : GoString
  DocID : GoString
  Title : GoString
  deriving DecidableEq

/-! ## concierge/api/feeder.go: line store -/

/-- The key `fmt.Sprintf("%s-%d", docID, lIndex)` of the line store. -/
def lineKey (docID : GoString) (lIndex : Int) : GoString :=
  docID ++ lit "-" ++ fmt.formatInt lIndex

/-- The messages the goroutine `lineStore` selects on: a line to put (`ch`)
and a request for a line (`callback`), answered on the channel of the
request. -/
inductive lineStoreMsg where
  | ch (line : lMeta)
  | callback (LIndex : Int) (DocID : GoString)

/-- One turn of the loop of Go `lineStore` on its map `store`: the map
afterwards and the line sent back, if the message was a request (the case
`done` ends the loop). -/
def lineStore (store : GoMap GoString GoString) (msg : lineStoreMsg) :
    GoMap GoString GoString × Option GoString :=
  match msg with
  | .ch line =>
    let id := lineKey line.DocID line.LIndex
    (store.set id line.Line, none)
  | .callback lIndex docID =>
    let line : GoString := []
    let id := lineKey docID lIndex
    let line := match store.get? id with
      | some l => l
      | none => line
    (store, some line)

/-- `Put` of the line store: the map after the message `lMeta`. -/
def lineStorePut (store : GoMap GoString GoString) (docID : GoString) (lIndex : Int)
    (text : GoString) : GoMap GoString GoString :=
  (lineStore store (.ch ⟨lIndex, docID, text⟩)).1

/-- `Get` of the line store: the answer to the message `lMsg`. -/
def lineStoreGet (store : GoMap GoString GoString) (docID : GoString) (lIndex : Int) :
    GoString :=
  ((lineStore store (.callback lIndex docID)).2).getD []

/-- The map of `lineStore` after the lines `sent` have arrived on `ch`, in
this order, starting from `store`. -/
def lineStoreAll (sent : List lMeta) (store : GoMap GoString GoString) :
    GoMap GoString GoString :=
  sent.foldl (fun st m => (lineStore st (.ch m)).1) store

/-! ## concierge/api/feeder.go: document store -/

/-- The zero value `document{}`. -/
def document.zero : document := ⟨[], [], [], []⟩

/-- The messages the goroutine `docStore` selects on. -/
inductive docStoreMsg where
  | add (doc : document)
  | get (DocID : GoString)
  | getAll

/-- The answers of `docStore`. -/
inductive docStoreReply where
  | none
  | doc (d : document)
  | docs (ds : List document)

/-- The document sent back for a request on `dGetCh`: `store[m.DocID]`. -/
def docStoreGet (store : GoMap GoString document) (docID : GoString) : document :=
  store.getD docID document.zero

/-- The documents sent back for a request on `dGetAllCh`. -/
def docStoreGetAll (ρ : RangeOrder GoString document) (store : GoMap GoString document) :
    List document :=
  (store.range ρ).foldl (fun docs e => docs ++ [e.2]) []

/-- One turn of the loop of Go `docStore` on its map `store` (the case `done`
ends the loop). -/
def docStore (ρ : RangeOrder GoString document) (store : GoMap GoString document)
    (msg : docStoreMsg) : GoMap GoString document × docStoreReply :=
  match msg with
  | .add doc => (store.set doc.DocID doc, .none)
  | .get docID => (store, .doc (docStoreGet store docID))
  | .getAll => (store, .docs (docStoreGetAll ρ store))

/-! ## concierge/api/feeder.go: document tokenizer -/

/-- The values sent on the two channels the tokenizer writes to, in the
order they were sent. -/
structure Sent where
  lStoreCh : List lMeta
  iAddCh : List token
  deriving DecidableEq

/-- The body of the loop of Go `processLine` on the counter `index` and the
values sent so far. -/
def processWord (SimplifyToken : GoString → GoString × Bool) (lineData : lineProcessData)
    (st : Int × Sent) (word : GoString) : Int × Sent :=
  let index := st.1
  let out := st.2
  let r := SimplifyToken word
  if r.2 then
    (index + 1, { out with iAddCh := out.iAddCh ++
        [{ Token := r.1, LIndex := lineData.LineIndex, Line := lineData.Line,
           Index := index, DocID := lineData.DocID, Title := lineData.Title }] })
  else (index, out)

/-- Go `processLine`.  `SimplifyToken` is the normalizer of `concierge/common`,
a parameter here. -/
def processLine (SimplifyToken : GoString → GoString × Bool) (lineData : lineProcessData)
    (out : Sent) : Sent :=
  let out := { out with lStoreCh := out.lStoreCh ++
    [{ LIndex := lineData.LineIndex, Line := lineData.Line, DocID := lineData.DocID }] }
  let index : Int := 0
  let words := strings.Fields lineData.Line
  (words.foldl (processWord SimplifyToken lineData) (index, out)).2

/-- The body of the loop of Go `processLinesInDoc` on the counter `lin` and
the values sent so far. -/
def processDocLine (SimplifyToken : GoString → GoString × Bool) (doc : document)
    (st : Int × Sent) (line : GoString) : Int × Sent :=
  let lin := st.1
  let out := st.2
  if strings.TrimSpace line = [] then (lin, out)
  else
    let lineData : lineProcessData :=
      { LineIndex := lin, Line := line, DocID := doc.DocID, Title := doc.Title }
    (lin + 1, processLine SimplifyToken lineData out)

/-- Go `processLinesInDoc`. -/
def processLinesInDoc (SimplifyToken : GoString → GoString × Bool) (doc : document)
    (out : Sent) : Sent :=
  let docLines := strings.Split doc.Doc '\n'.toUInt8
  let lin : Int := 0
  (docLines.foldl (processDocLine SimplifyToken doc) (lin, out)).2

/-! ## concierge/api/feeder.go: feed handler -/

/-- What the handlers of the feeder act on: the map of `docStore` and the
payloads sent on `pProcessCh`. -/
structure FeederState where
  store : GoMap GoString document
  pProcessCh : List payload
  deriving DecidableEq

/-- The functions of `encoding/json` the feed handler calls: `Marshal` on a
slice of documents (the bytes and the error, `none` for `nil`) and `Decode`
into a payload (the payload is left at its zero value where the body does
not supply it). -/
structure Json where
  Marshal : List document → GoString × Option GoString
  Decode : GoString → payload

/-- Go `returnAllDocs`.  The test `err == nil` sends the successful case into
the branch that calls `err.Error()` on the nil error. -/
def returnAllDocs (json : Json) (ρ : RangeOrder GoString document)
    (store : GoMap GoString document) (w : http.ResponseWriter) :
    Except Panic http.ResponseWriter :=
  let docs := docStoreGetAll ρ store
  let r := json.Marshal docs
  let serializedPayload := r.1
  match r.2 with
  | none => .error Panic.nilDereference
  | some _ => .ok (w.Write serializedPayload)

/-- Go `FeedHandler`. -/
def FeedHandler (json : Json) (ρ : RangeOrder GoString document) (st : FeederState)
    (w : http.ResponseWriter) (r : http.Request) :
    Except Panic (http.ResponseWriter × FeederState) :=
  let s := Common.SignalIfMethodNotAllowed w r (lit "POST")
  if s.2 then .ok (s.1, st)
  else if r.Method = lit "GET" then
    match returnAllDocs json ρ st.store s.1 with
    | .ok w => .ok (w, st)
    | .error e => .error e
  else
    let newDoc := json.Decode r.Body
    let st := { st with pProcessCh := st.pProcessCh ++ [newDoc] }
    .ok (s.1.Write (lit "\x7b\"code\": 200, \"msg\": \"Request is being processed.\"\x7d"), st)

/-! ## concierge/api/query.go: merge and ranking -/

structure docs where
  DocID : GoString
  Score : Int
  deriving DecidableEq

structure queryResult where
  Count : Int
  Data : List docs
  deriving DecidableEq

/-- The first loop of Go `getResultsMap`: `n` receives from the channel, whose
future messages are `ch`; `none` when the channel has no message left for a
receive, which then never returns. -/
def receiveResults : Nat → List queryResult → List docs → Option (List docs)
  | 0, _, results => some results
  | _ + 1, [], _ => none
  | n + 1, result :: ch, results =>
    receiveResults n ch (if result.Count > 0 then results ++ result.Data else results)

/-- The body of the second loop of Go `getResultsMap`. -/
def mergeStep (resultsMap : GoMap GoString Int) (doc : docs) : GoMap GoString Int :=
  let docID := doc.DocID
  let score := doc.Score
  let resultsMap :=
    if (resultsMap.get? docID).isNone then resultsMap.set docID 0 else resultsMap
  resultsMap.set docID (goAdd (resultsMap.getD docID 0) score)

/-- The second loop of Go `getResultsMap`. -/
def mergeResults (results : List docs) : GoMap GoString Int :=
  results.foldl mergeStep GoMap.empty

/-- Go `getResultsMap`: one receive per entry of `librarianEndpoints`. -/
def getResultsMap (env : Env) (ch : List queryResult) : Option (GoMap GoString Int) :=
  match receiveResults (librarianEndpoints env).size ch [] with
  | none => none
  | some results => some (mergeResults results)

/-- The body of the loop of Go `aggregateResultsScore`; the document is asked
from `docStore`, whose map is `store`. -/
def aggregateStep (store : GoMap GoString document) (scoreMap : GoMap Int (List document))
    (e : GoString × Int) : GoMap Int (List document) :=
  let docID := e.1
  let score := e.2
  let scoreMap :=
    if (scoreMap.get? score).isNone then scoreMap.set score [] else scoreMap
  let doc := docStoreGet store docID
  scoreMap.set score (scoreMap.getD score [] ++ [doc])

/-- Go `aggregateResultsScore`. -/
def aggregateResultsScore (ρ : RangeOrder GoString Int) (store : GoMap GoString document)
    (resultsMap : GoMap GoString Int) : GoMap Int (List document) :=
  (resultsMap.range ρ).foldl (aggregateStep store) GoMap.empty

/-- Go `getResultsSortedByScore`. -/
def getResultsSortedByScore (scores : List Int) (scoreMap : GoMap Int (List document)) :
    List document :=
  scores.foldl (fun sortedResults score =>
    let resDocs := scoreMap.getD score []
    sortedResults ++ resDocs) []

/-! ## Quantities the statements are written in -/

/-- The normalized tokens of the whitespace-delimited words of a line that
the normalizer flags valid, in word order. -/
def validTokens (SimplifyToken : GoString → GoString × Bool) (line : GoString) :
    List GoString :=
  (strings.Fields line).filterMap
    (fun w => if (SimplifyToken w).2 then some (SimplifyToken w).1 else none)

/-- The occurrence of the token `jt.2` as the valid token number `jt.1` of a
line. -/
def occurrence (lineData : lineProcessData) (jt : Nat × GoString) : token :=
  { Token := jt.2, LIndex := lineData.LineIndex, Line := lineData.Line, Index := (jt.1 : Int),
    DocID := lineData.DocID, Title := lineData.Title }

/-- A line is blank when it is empty or all its runes are white space. -/
def whitespaceOnly (line : GoString) : Bool :=
  (utf8.runes line).all (fun r => unicode.IsSpace r.1)

/-- The newline-separated lines of a content that are not blank, in source
order. -/
def keptLines (content : GoString) : List GoString :=
  (strings.Split content '\n'.toUInt8).filter (fun l => !whitespaceOnly l)

/-- The line `il.2` of a document as its kept line number `il.1`. -/
def keptLine (doc : document) (il : Nat × GoString) : lineProcessData :=
  { LineIndex := (il.1 : Int), Line := il.2, DocID := doc.DocID, Title := doc.Title }

/-- The scores reported for the document `d` by the shard results that
`getResultsMap` counts: those whose field `Count` is positive. -/
def countedScores (received : List queryResult) (d : GoString) : List Int :=
  (((received.filter (fun r => decide (r.Count > 0))).flatMap (fun r => r.Data)).filter
    (fun x => decide (x.DocID = d))).map (fun x => x.Score)

/-- The scores reported for the document `d` by the shard results whose data
is not empty. -/
def nonEmptyDataScores (received : List queryResult) (d : GoString) : List Int :=
  (((received.filter (fun r => !r.Data.isEmpty)).flatMap (fun r => r.Data)).filter
    (fun x => decide (x.DocID = d))).map (fun x => x.Score)

/-- The merged total of the document `d` over the shard results whose data is
not empty: no entry when no result names `d`, the sum of its scores
otherwise. -/
def nonEmptyDataTotal (received : List queryResult) (d : GoString) : Option Int :=
  if nonEmptyDataScores received d = [] then none
  else some (nonEmptyDataScores received d).sum

/-- Go `sortResults`. -/
def sortResults (ρ₁ : RangeOrder GoString Int) (ρ₂ : RangeOrder Int (List document))
    (store : GoMap GoString document) (resultsMap : GoMap GoString Int) : List document :=
  let scoreMap := aggregateResultsScore ρ₁ store resultsMap
  let scores := (scoreMap.range ρ₂).foldl (fun scores e => scores ++ [e.1]) []
  let scores := sort.SortReverseInts scores
  getResultsSortedByScore scores scoreMap

end Concierge

/-! ## librarian/api/index.go: token catalog -/

namespace Librarian

structure tPayload where
  Token : GoString
  Title : GoString
  DocID : GoString
  LIndex : Int
  Index : Int
  deriving DecidableEq

structure tIndex where
  Index : Int
  LIndex : Int
  deriving DecidableEq

/-- Go `document` of the librarian; the key of `Indices` is the line index. -/
structure document where
  Count : Int
  DocID : GoString
  Title : GoString
  Indices : GoMap Int (List tIndex)

/-- Go `documentCatalog`; the key is the document id.  The Go map holds
pointers, each created by `getDocumentForDocID` and stored under one key of
one catalog only, so the documents are held by value here. -/
abbrev documentCatalog := GoMap GoString document

/-- Go `tCatalog`; the key is the token. -/
abbrev tCatalog := GoMap GoString documentCatalog

/-- Go `getDocumentCatalog`: the catalog of the token, and the store, in which
an empty catalog has been put when the token had none. -/
def getDocumentCatalog (token : GoString) (store : tCatalog) : documentCatalog × tCatalog :=
  match store.get? token with
  | some dc => (dc, store)
  | none =>
    let dc : documentCatalog := GoMap.empty
    (dc, store.set token dc)

/-- Go `getDocumentForDocID`: the document of the id, and the catalog, in
which a new document has been put when the id had none. -/
def getDocumentForDocID (docID : GoString) (docCatalog : documentCatalog) :
    document × documentCatalog :=
  match docCatalog.get? docID with
  | some doc => (doc, docCatalog)
  | none =>
    let doc : document := { Count := 0, DocID := docID, Title := [], Indices := GoMap.empty }
    (doc, docCatalog.set docID doc)

/-- Go `increaseDocumentScore`.  The writes through the pointer `doc` and
into the map `docCatalog` are writes into the store. -/
def increaseDocumentScore (payload : tPayload) (store : tCatalog) : tCatalog :=
  let r := getDocumentCatalog payload.Token store
  let docCatalog := r.1
  let store := r.2
  let r := getDocumentForDocID payload.DocID docCatalog
  let doc := r.1
  let docCatalog := r.2
  let doc := { doc with Title := payload.Title }
  let tin : tIndex := { Index := payload.Index, LIndex := payload.LIndex }
  let doc := { doc with
    Indices := doc.Indices.set tin.LIndex (doc.Indices.getD tin.LIndex [] ++ [tin]) }
  let doc := { doc with Count := doc.Count + 1 }
  store.set payload.Token (docCatalog.set payload.DocID doc)

/-- Go `returnDocumentCatalog`: the catalog sent back for a token, `nil`
(no entry) when the token has none. -/
def returnDocumentCatalog (token : GoString) (store : tCatalog) : documentCatalog :=
  store.getD token GoMap.empty

/-- The messages the goroutine `tIndexer` selects on. -/
inductive tIndexerMsg where
  | callback (Token : GoString)
  | ch (payload : tPayload)

/-- One turn of the loop of Go `tIndexer` on its catalog `store`. -/
def tIndexer (store : tCatalog) (msg : tIndexerMsg) : tCatalog × Option documentCatalog :=
  match msg with
  | .callback token => (store, some (returnDocumentCatalog token store))
  | .ch payload => (increaseDocumentScore payload store, none)

/-- The catalog of `tIndexer` after the payloads `ps` have arrived on `ch`,
starting from `store`. -/
def indexAll (ps : List tPayload) (store : tCatalog) : tCatalog :=
  ps.foldl (fun st p => (tIndexer st (.ch p)).1) store

/-! ## Quantities the statements are written in -/

/-- The DocumentEntry of the pair (token, document), if there is one. -/
def entry (store : tCatalog) (t d : GoString) : Option document :=
  (store.get? t).bind (fun dc => dc.get? d)

/-- The number of positions recorded in a DocumentEntry, over all lines. -/
def positions (doc : document) : Nat :=
  (doc.Indices.entries.map (fun e => e.2.length)).sum

/-- The number of occurrences of a sequence with token `t` and document `d`. -/
def occurrences (ps : List tPayload) (t d : GoString) : Nat :=
  ps.countP (fun p => decide (p.Token = t ∧ p.DocID = d))

end Librarian

/-! ## concierge/api/feeder.go: index poster, up to librarian/api/index.go -/

namespace Concierge

/-- The payload Go `IndexHandler` decodes (`decoder.Decode(&tp)`) from the
body `json.Marshal(tok)` that `postToLibrarian` posts: the fields `token`,
`title` and `doc_id` as their JSON round trip, the integers `line_index` and
`token_index` unchanged; the field `Line` is not serialized. -/
def wirePayload (tok : token) : Librarian.tPayload :=
  { Token := encodingJson.roundTrip tok.Token, Title := encodingJson.roundTrip tok.Title,
    DocID := encodingJson.roundTrip tok.DocID, LIndex := tok.LIndex, Index := tok.Index }

/-- Go `postToLibrarian`, for a post that reaches the librarian and is
answered: the URL posted to and the payload `IndexHandler` puts on its
`pProcessCh`.  `json.Marshal` does not fail on a `token`; `getTokIndexer`
panics on the empty token. -/
def postToLibrarian (env : Env) (tok : token) : Except Panic (GoString × Librarian.tPayload) :=
  let serializedPayload := wirePayload tok
  match getTokIndexer env tok.Token with
  | .error e => .error e
  | .ok indexerURL => .ok (indexerURL, serializedPayload)

/-- The URL `getTokIndexer` returns for a token, empty where it panics. -/
def indexerURL (env : Env) (tok : GoString) : GoString :=
  match getTokIndexer env tok with
  | .ok u => u
  | .error _ => []

/-- Go `indexAdder` on the tokens taken from its channel, in this order: the
posts made, or the panic that ends the process. -/
def indexAdder (env : Env) : List token → Except Panic (List (GoString × Librarian.tPayload))
  | [] => .ok []
  | tok :: ch =>
    match postToLibrarian env tok with
    | .error e => .error e
    | .ok post =>
      match indexAdder env ch with
      | .error e => .error e
      | .ok posts => .ok (post :: posts)

end Concierge

namespace Librarian

/-- The payloads among the posts `posts` that went to the librarian whose
index endpoint has the URL `u`.  The goroutines `indexAdder` post
concurrently, so the librarian takes these payloads in some order. -/
def postedTo (u : GoString) (posts : List (GoString × tPayload)) : List tPayload :=
  (posts.filter (fun post => decide (post.1 = u))).map Prod.snd

/-- The catalog of the librarian whose index endpoint has the URL `u` when
the payloads posted to it arrive in the order they were posted, starting
from the empty catalog. -/
def shardCatalog (u : GoString) (posts : List (GoString × tPayload)) : tCatalog :=
  indexAll (postedTo u posts) GoMap.empty

end Librarian

/-! # Theorems -/

/-! ## Maps -/

namespace GoMap

theorem entries_empty {κ ν : Type} : (empty : GoMap κ ν).entries = [] := rfl

variable {κ ν : Type} [DecidableEq κ]

theorem get?_empty (k : κ) : (empty : GoMap κ ν).get? k = none := rfl


theorem get?_set_self (m : GoMap κ ν) (k : κ) (v : ν) : (m.set k v).get? k = some v := by
  simp [get?, set]

theorem get?_set_ne (m : GoMap κ ν) {k k' : κ} (v : ν) (h : k' ≠ k) :
    (m.set k v).get? k' = m.get? k' := by
  have hk : ¬ k = k' := fun e => h e.symm
  simp only [get?, set, List.find?_cons, hk, decide_False, List.find?_filter]
  congr 2
  funext e
  by_cases he : e.1 = k'
  · simp [he, h]
  · simp [he]

theorem getD_set_self (m : GoMap κ ν) (k : κ) (v z : ν) : (m.set k v).getD k z = v := by
  simp [getD, get?_set_self]

theorem getD_set_ne (m : GoMap κ ν) {k k' : κ} (v z : ν) (h : k' ≠ k) :
    (m.set k v).getD k' z = m.getD k' z := by
  simp [getD, get?_set_ne m v h]

theorem find?_eq_some_of_mem (l : List (κ × ν)) (hl : (l.map Prod.fst).Nodup) {k : κ} {v : ν}
    (h : (k, v) ∈ l) : l.find? (fun e => decide (e.1 = k)) = some (k, v) := by
  induction l with
  | nil => simp at h
  | cons e l ih =>
    rw [List.map_cons, List.nodup_cons] at hl
    rcases List.mem_cons.1 h with h | h
    · subst h; simp
    · have hne : ¬ e.1 = k := by
        intro he
        exact hl.1 (he ▸ List.mem_map_of_mem Prod.fst h)
      simp only [List.find?_cons, hne, decide_False]
      exact ih hl.2 h

theorem get?_eq_some_iff (m : GoMap κ ν) (k : κ) (v : ν) :
    m.get? k = some v ↔ (k, v) ∈ m.entries := by
  constructor
  · intro h
    simp only [get?, Option.map_eq_some'] at h
    rcases h with ⟨e, he, hv⟩
    have hm := List.mem_of_find?_eq_some he
    have hk := List.find?_some he
    simp only [decide_eq_true_eq] at hk
    rcases e with ⟨a, b⟩
    simp only at hk hv
    subst hk; subst hv
    exact hm
  · intro h
    simp [get?, find?_eq_some_of_mem m.entries m.nodup h]

theorem get?_eq_none_iff (m : GoMap κ ν) (k : κ) : m.get? k = none ↔ k ∉ m.keys := by
  constructor
  · intro h hk
    rcases List.mem_map.1 hk with ⟨⟨a, b⟩, he, hek⟩
    simp only at hek
    subst hek
    rw [(get?_eq_some_iff m a b).2 he] at h
    cases h
  · intro h
    cases hg : m.get? k with
    | none => rfl
    | some v =>
      exact absurd (List.mem_map_of_mem Prod.fst ((get?_eq_some_iff m k v).1 hg)) h

end GoMap

/-! ## Shard router -/

namespace Concierge

theorem endpoints_a_m (env : Env) : (librarianEndpoints env).getD (lit "a-m") [] = env.LIB_A_M :=
  rfl

theorem endpoints_n_z (env : Env) : (librarianEndpoints env).getD (lit "n-z") [] = env.LIB_N_Z :=
  rfl

theorem endpoints_others (env : Env) :
    (librarianEndpoints env).getD (lit "*") [] = env.LIB_OTHERS :=
  rfl

theorem endpoints_size (env : Env) : (librarianEndpoints env).size = 3 := rfl

/-- C3: for a non-empty token `t :: rest`, `getTokIndexer` returns the "a-m"
endpoint followed by "/index" when the first byte is in 'a'..'m', the "n-z"
endpoint followed by "/index" when it is in 'n'..'z', and the "other"
endpoint followed by "/index" for every other first byte; the result depends
on the first byte only; "apple", "zebra" and "123abc" go to a-m, n-z and
other. -/
theorem getTokIndexer_routes (env : Env) (t : UInt8) (rest : GoString) :
    (('a'.toNat ≤ t.toNat ∧ t.toNat ≤ 'm'.toNat) →
      getTokIndexer env (t :: rest) = .ok (env.LIB_A_M ++ lit "/index")) ∧
    (('n'.toNat ≤ t.toNat ∧ t.toNat ≤ 'z'.toNat) →
      getTokIndexer env (t :: rest) = .ok (env.LIB_N_Z ++ lit "/index")) ∧
    (¬ ('a'.toNat ≤ t.toNat ∧ t.toNat ≤ 'z'.toNat) →
      getTokIndexer env (t :: rest) = .ok (env.LIB_OTHERS ++ lit "/index")) ∧
    (∀ rest' : GoString, getTokIndexer env (t :: rest') = getTokIndexer env (t :: rest)) ∧
    getTokIndexer env (lit "apple") = .ok (env.LIB_A_M ++ lit "/index") ∧
    getTokIndexer env (lit "zebra") = .ok (env.LIB_N_Z ++ lit "/index") ∧
    getTokIndexer env (lit "123abc") = .ok (env.LIB_OTHERS ++ lit "/index") := by
  have ha : 'a'.toNat = 97 := rfl
  have hm : 'm'.toNat = 109 := rfl
  have hn : 'n'.toNat = 110 := rfl
  have hz : 'z'.toNat = 122 := rfl
  refine ⟨?_, ?_, ?_, fun _ => rfl, rfl, rfl, rfl⟩
  · intro h
    simp only [getTokIndexer, endpoints_a_m, ge_iff_le, h, and_self, if_true]
  · intro h
    have h1 : ¬ ('a'.toNat ≤ t.toNat ∧ t.toNat ≤ 'm'.toNat) := by
      rw [ha, hm]; rw [hn, hz] at h; omega
    simp only [getTokIndexer, endpoints_n_z, ge_iff_le, h, h1, and_self, if_true, if_false]
  · intro h
    have h1 : ¬ ('a'.toNat ≤ t.toNat ∧ t.toNat ≤ 'm'.toNat) := by
      rw [ha, hm]; rw [ha, hz] at h; omega
    have h2 : ¬ ('n'.toNat ≤ t.toNat ∧ t.toNat ≤ 'z'.toNat) := by
      rw [hn, hz]; rw [ha, hz] at h; omega
    simp only [getTokIndexer, endpoints_others, ge_iff_le, h1, h2, if_false]

/-- C7: on the empty token `getTokIndexer` does not return the "other"
endpoint: the expression `tok[0]` panics with an index out of range. -/
theorem getTokIndexer_empty_panics (env : Env) :
    getTokIndexer env [] = .error Panic.indexOutOfRange ∧
    getTokIndexer env [] ≠ .ok (env.LIB_OTHERS ++ lit "/index") := by
  constructor
  · rfl
  · intro h; cases h

end Concierge

/-! ## Line store -/

namespace fmt

theorem digitByte_toNat {d : Nat} (h : d < 10) : (digitByte d).toNat = 48 + d := by
  show (48 + d) % 256 = 48 + d
  omega

theorem natDigits_not_dash (fuel n : Nat) : '-'.toUInt8 ∉ natDigits fuel n := by
  induction fuel generalizing n with
  | zero => simp [natDigits]
  | succ fuel ih =>
    have key : ∀ d, d < 10 → ¬ '-'.toUInt8 = digitByte d := by
      intro d hd he
      have h1 := digitByte_toNat hd
      rw [← he] at h1
      have h2 : ('-'.toUInt8).toNat = 45 := rfl
      omega
    unfold natDigits
    split
    · rename_i h
      simpa using key n h
    · simp only [List.mem_append, List.mem_singleton, not_or]
      exact ⟨ih _, key _ (Nat.mod_lt _ (by decide))⟩

theorem digitsValue_natDigits (fuel n : Nat) (h : n < fuel) :
    digitsValue (natDigits fuel n) = n := by
  induction fuel generalizing n with
  | zero => omega
  | succ fuel ih =>
    unfold natDigits
    split
    · rename_i hn
      simp [digitsValue, digitByte_toNat hn]
    · rename_i hn
      have hlt : n / 10 < fuel := by omega
      have hd : (digitByte (n % 10)).toNat = 48 + n % 10 :=
        digitByte_toNat (Nat.mod_lt _ (by decide))
      have := ih (n / 10) hlt
      simp only [digitsValue] at this
      simp only [digitsValue, List.foldl_append, List.foldl_cons, List.foldl_nil, this, hd]
      omega

theorem formatInt_of_nonneg {i : Int} (h : 0 ≤ i) :
    formatInt i = natDigits (i.toNat + 1) i.toNat := by
  unfold formatInt
  rw [if_neg (by omega)]

theorem formatInt_injective {i j : Int} (hi : 0 ≤ i) (hj : 0 ≤ j)
    (h : formatInt i = formatInt j) : i = j := by
  rw [formatInt_of_nonneg hi, formatInt_of_nonneg hj] at h
  have h1 := digitsValue_natDigits (i.toNat + 1) i.toNat (by omega)
  have h2 := digitsValue_natDigits (j.toNat + 1) j.toNat (by omega)
  rw [h, h2] at h1
  omega

end fmt

theorem append_cons_inj_of_not_mem_left {α : Type} {a : α} :
    ∀ {x₁ x₂ z₁ z₂ : List α}, a ∉ x₁ → a ∉ x₂ → x₁ ++ a :: z₁ = x₂ ++ a :: z₂ →
      x₁ = x₂ ∧ z₁ = z₂
  | [], [], _, _, _, _, h => by simpa using h
  | [], b :: x₂, _, _, _, h2, h => by
    simp only [List.nil_append, List.cons_append, List.cons.injEq] at h
    exact absurd (h.1 ▸ List.mem_cons_self _ _) h2
  | c :: x₁, [], _, _, h1, _, h => by
    simp only [List.nil_append, List.cons_append, List.cons.injEq] at h
    exact absurd (h.1 ▸ List.mem_cons_self _ _) h1
  | c :: x₁, b :: x₂, _, _, h1, h2, h => by
    simp only [List.cons_append, List.cons.injEq] at h
    have := append_cons_inj_of_not_mem_left (fun m => h1 (List.mem_cons_of_mem _ m))
      (fun m => h2 (List.mem_cons_of_mem _ m)) h.2
    exact ⟨by rw [h.1, this.1], this.2⟩

namespace Concierge

theorem lineKey_injective {d d' : GoString} {i i' : Int} (hi : 0 ≤ i) (hi' : 0 ≤ i')
    (h : lineKey d' i' = lineKey d i) : d' = d ∧ i' = i := by
  have hl : lit "-" = ['-'.toUInt8] := rfl
  simp only [lineKey, hl, List.append_assoc, List.singleton_append] at h
  have hr := congrArg List.reverse h
  simp only [List.reverse_append, List.reverse_cons, List.append_assoc, List.singleton_append]
    at hr
  have n1 : '-'.toUInt8 ∉ (fmt.formatInt i').reverse := by
    rw [fmt.formatInt_of_nonneg hi', List.mem_reverse]
    exact fmt.natDigits_not_dash _ _
  have n2 : '-'.toUInt8 ∉ (fmt.formatInt i).reverse := by
    rw [fmt.formatInt_of_nonneg hi, List.mem_reverse]
    exact fmt.natDigits_not_dash _ _
  have := append_cons_inj_of_not_mem_left n1 n2 hr
  exact ⟨List.reverse_injective this.2,
    fmt.formatInt_injective hi' hi (List.reverse_injective this.1)⟩

theorem lineStoreGet_lineStorePut (store : GoMap GoString GoString) (d : GoString) (i : Int)
    (text : GoString) : lineStoreGet (lineStorePut store d i text) d i = text := by
  simp [lineStoreGet, lineStorePut, lineStore, GoMap.get?_set_self]

theorem lineStoreGet_lineStorePut_ne (store : GoMap GoString GoString) {d d' : GoString}
    {i i' : Int} (text : GoString) (hi : 0 ≤ i) (hi' : 0 ≤ i') (hp : (d', i') ≠ (d, i)) :
    lineStoreGet (lineStorePut store d i text) d' i' = lineStoreGet store d' i' := by
  have hne : lineKey d' i' ≠ lineKey d i := by
    intro hk
    have := lineKey_injective hi hi' hk
    exact hp (by rw [this.1, this.2])
  simp [lineStoreGet, lineStorePut, lineStore, GoMap.get?_set_ne store text hne]

theorem lineStoreGet_lineStoreAll_of_ne (d : GoString) (i : Int) (hi : 0 ≤ i) :
    ∀ (sent : List lMeta) (store : GoMap GoString GoString),
      (∀ m ∈ sent, 0 ≤ m.LIndex ∧ (d, i) ≠ (m.DocID, m.LIndex)) →
      lineStoreGet (lineStoreAll sent store) d i = lineStoreGet store d i
  | [], _, _ => rfl
  | m :: sent, store, h => by
    have hm := h m (List.mem_cons_self _ _)
    have ih := lineStoreGet_lineStoreAll_of_ne d i hi sent
      (lineStorePut store m.DocID m.LIndex m.Line)
      (fun x hx => h x (List.mem_cons_of_mem _ hx))
    have hstep : lineStoreAll (m :: sent) store =
        lineStoreAll sent (lineStorePut store m.DocID m.LIndex m.Line) := rfl
    rw [hstep, ih, lineStoreGet_lineStorePut_ne store m.Line hm.1 hi hm.2]

theorem lineStoreGet_lineStoreAll_enumFrom (d : GoString) :
    ∀ (lines : List GoString) (n : Nat) (store : GoMap GoString GoString) (i : Nat)
      (l : GoString), lines[i]? = some l →
      lineStoreGet (lineStoreAll ((lines.enumFrom n).map
        (fun il => (⟨(il.1 : Int), d, il.2⟩ : lMeta))) store) d ((n + i : Nat) : Int) = l
  | [], _, _, _, _, h => by simp at h
  | l0 :: lines, n, store, i, l, h => by
    have hstep : lineStoreAll (((l0 :: lines).enumFrom n).map
        (fun il => (⟨(il.1 : Int), d, il.2⟩ : lMeta))) store =
        lineStoreAll ((lines.enumFrom (n + 1)).map
          (fun il => (⟨(il.1 : Int), d, il.2⟩ : lMeta))) (lineStorePut store d (n : Int) l0) :=
      rfl
    rw [hstep]
    cases i with
    | zero =>
      simp only [List.getElem?_cons_zero, Option.some.injEq] at h
      subst h
      have hcast : ((n + 0 : Nat) : Int) = (n : Int) := by simp
      rw [hcast, lineStoreGet_lineStoreAll_of_ne d (n : Int) (by omega)]
      · exact lineStoreGet_lineStorePut store d n l0
      · intro m hm
        rcases List.mem_map.1 hm with ⟨il, hil, rfl⟩
        have hle := List.le_fst_of_mem_enumFrom hil
        refine ⟨by simp, ?_⟩
        intro he
        simp only [Prod.mk.injEq, true_and] at he
        omega
    | succ i =>
      simp only [List.getElem?_cons_succ] at h
      have ih := lineStoreGet_lineStoreAll_enumFrom d lines (n + 1)
        (lineStorePut store d (n : Int) l0) i l h
      have hcast : ((n + (i + 1) : Nat) : Int) = ((n + 1 + i : Nat) : Int) := by
        congr 1; omega
      rw [hcast]
      exact ih

/-- C9: the line store is a map keyed by the pair (documentId, lineIndex):
for non-negative line indices, after `Put(d, i, text)` a `Get(d, i)` returns
`text`, a `Get(d', i')` for a different pair returns what it returned before
the put, and the keys "<documentId>-<lineIndex>" of two different pairs are
different. -/
theorem lineStore_put_get (store : GoMap GoString GoString) (d d' : GoString) (i i' : Int)
    (text : GoString) (hi : 0 ≤ i) (hi' : 0 ≤ i') :
    lineStoreGet (lineStorePut store d i text) d i = text ∧
    ((d', i') ≠ (d, i) →
      lineStoreGet (lineStorePut store d i text) d' i' = lineStoreGet store d' i') ∧
    ((d', i') ≠ (d, i) → lineKey d' i' ≠ lineKey d i) := by
  refine ⟨lineStoreGet_lineStorePut store d i text,
    fun hp => lineStoreGet_lineStorePut_ne store text hi hi' hp, ?_⟩
  intro hp hk
  have := lineKey_injective hi hi' hk
  exact hp (by rw [this.1, this.2])

/-- Witness of C9: the pairs ("a-1", 2) and ("a", 12). -/
theorem lineStore_put_get_witness :
    lineStoreGet (lineStorePut GoMap.empty (lit "a-1") 2 (lit "x")) (lit "a-1") 2 = lit "x" ∧
    ((lit "a", (12 : Int)) ≠ (lit "a-1", 2) →
      lineStoreGet (lineStorePut GoMap.empty (lit "a-1") 2 (lit "x")) (lit "a") 12
        = lineStoreGet GoMap.empty (lit "a") 12) ∧
    ((lit "a", (12 : Int)) ≠ (lit "a-1", 2) → lineKey (lit "a") 12 ≠ lineKey (lit "a-1") 2) :=
  lineStore_put_get GoMap.empty (lit "a-1") (lit "a") 2 12 (lit "x") (by decide) (by decide)

end Concierge

/-! ## Score merge -/

theorem wrapInt_add_left (a b : Int) : wrapInt (wrapInt a + b) = wrapInt (a + b) := by
  unfold wrapInt
  omega

theorem wrapInt_of_inIntRange {x : Int} (h : inIntRange x) : wrapInt x = x := by
  unfold inIntRange at h
  unfold wrapInt
  omega

theorem foldl_goAdd (l : List Int) (a : Int) :
    l.foldl goAdd (wrapInt a) = wrapInt (a + l.sum) := by
  induction l generalizing a with
  | nil => simp
  | cons x l ih =>
    simp only [List.foldl_cons, List.sum_cons, goAdd, wrapInt_add_left]
    rw [ih, add_assoc]

namespace Concierge

theorem receiveResults_eq (n : Nat) (ch : List queryResult) (results : List docs)
    (h : ch.length = n) :
    receiveResults n ch results =
      some (results ++ (ch.filter (fun r => decide (r.Count > 0))).flatMap (fun r => r.Data)) := by
  induction n generalizing ch results with
  | zero =>
    have : ch = [] := List.length_eq_zero.1 h
    subst this
    simp [receiveResults]
  | succ n ih =>
    cases ch with
    | nil => simp at h
    | cons r ch =>
      simp only [List.length_cons, Nat.add_right_cancel_iff] at h
      simp only [receiveResults]
      rw [ih ch _ h]
      by_cases hc : r.Count > 0
      · simp [hc, List.filter_cons]
      · simp [hc, List.filter_cons]

theorem get?_mergeStep (m : GoMap GoString Int) (doc : docs) (d : GoString) :
    (mergeStep m doc).get? d =
      if doc.DocID = d then some (goAdd (m.getD d 0) doc.Score) else m.get? d := by
  unfold mergeStep
  by_cases hd : doc.DocID = d
  · subst hd
    simp only [if_true, GoMap.get?_set_self]
    cases hg : m.get? doc.DocID with
    | none => simp [GoMap.getD, GoMap.get?_set_self, hg]
    | some v => simp [GoMap.getD, hg]
  · have hd' : d ≠ doc.DocID := fun e => hd e.symm
    simp only [hd, if_false]
    rw [GoMap.get?_set_ne _ _ hd']
    split
    · rw [GoMap.get?_set_ne _ _ hd']
    · rfl

theorem get?_foldl_mergeStep (l : List docs) (m : GoMap GoString Int) (d : GoString) :
    (l.foldl mergeStep m).get? d =
      if (l.filter (fun x => decide (x.DocID = d))).map (fun x => x.Score) = [] then m.get? d
      else some (((l.filter (fun x => decide (x.DocID = d))).map (fun x => x.Score)).foldl goAdd
        (m.getD d 0)) := by
  induction l generalizing m with
  | nil => simp
  | cons doc l ih =>
    rw [List.foldl_cons, ih]
    by_cases hd : doc.DocID = d
    · have hg : (mergeStep m doc).getD d 0 = goAdd (m.getD d 0) doc.Score := by
        simp [GoMap.getD, get?_mergeStep, hd]
      simp only [List.filter_cons, hd, decide_True, if_true, List.map_cons, List.foldl_cons,
        hg, get?_mergeStep]
      split
      · rename_i h
        simp [h]
      · simp
    · have hg : (mergeStep m doc).getD d 0 = m.getD d 0 := by
        simp [GoMap.getD, get?_mergeStep, hd]
      simp only [List.filter_cons, hd, decide_False, hg, get?_mergeStep, if_false]
      rfl

theorem get?_mergeResults (results : List docs) (d : GoString) :
    (mergeResults results).get? d =
      if (results.filter (fun x => decide (x.DocID = d))).map (fun x => x.Score) = [] then none
      else some (wrapInt
        ((results.filter (fun x => decide (x.DocID = d))).map (fun x => x.Score)).sum) := by
  unfold mergeResults
  rw [get?_foldl_mergeStep]
  have h0 : (GoMap.empty : GoMap GoString Int).getD d 0 = wrapInt 0 := rfl
  rw [h0, foldl_goAdd, zero_add]
  rfl

/-- C1 (amended): when one shard result per configured endpoint is received,
`getResultsMap` returns a mapping that assigns to every documentId named in
the data of a shard result whose `Count` is positive the sum of the scores of
all its pairs in those results, in the wrapping arithmetic of Go `int` (the
exact sum when it is in the range of `int`), and has no key for any other
documentId.  For shard A = (1, doc1:3), shard B = (2, doc1:2, doc2:5) and an
empty third result the totals are doc1:5, doc2:5. -/
theorem getResultsMap_sums_counted (env : Env) (received : List queryResult)
    (h : received.length = (librarianEndpoints env).size) :
    ∃ m : GoMap GoString Int, getResultsMap env received = some m ∧
      ∀ d : GoString,
        (countedScores received d = [] → m.get? d = none) ∧
        (countedScores received d ≠ [] →
          m.get? d = some (wrapInt (countedScores received d).sum)) ∧
        (countedScores received d ≠ [] → inIntRange (countedScores received d).sum →
          m.get? d = some (countedScores received d).sum) := by
  refine ⟨mergeResults
    ((received.filter (fun r => decide (r.Count > 0))).flatMap (fun r => r.Data)), ?_, ?_⟩
  · unfold getResultsMap
    rw [receiveResults_eq _ _ _ h]
    rfl
  · intro d
    rw [get?_mergeResults]
    unfold countedScores
    refine ⟨fun h0 => by rw [if_pos h0], fun h0 => by rw [if_neg h0], fun h0 hr => ?_⟩
    rw [if_neg h0, wrapInt_of_inIntRange hr]

/-- Witness of C1: shard A returns doc1:3, shard B returns doc1:2 and doc2:5,
the third shard returns nothing. -/
theorem getResultsMap_sums_counted_witness :
    ∃ m : GoMap GoString Int,
      getResultsMap ⟨lit "A", lit "N", lit "O"⟩
        [⟨1, [⟨lit "doc1", 3⟩]⟩, ⟨2, [⟨lit "doc1", 2⟩, ⟨lit "doc2", 5⟩]⟩, ⟨0, []⟩] = some m ∧
      m.get? (lit "doc1") = some 5 ∧ m.get? (lit "doc2") = some 5 ∧
      m.get? (lit "doc3") = none := by
  obtain ⟨m, hm, hd⟩ := getResultsMap_sums_counted ⟨lit "A", lit "N", lit "O"⟩
    [⟨1, [⟨lit "doc1", 3⟩]⟩, ⟨2, [⟨lit "doc1", 2⟩, ⟨lit "doc2", 5⟩]⟩, ⟨0, []⟩] (by decide)
  refine ⟨m, hm, ?_, ?_, ?_⟩
  · exact (hd (lit "doc1")).2.2 (by decide) (by decide)
  · exact (hd (lit "doc2")).2.2 (by decide) (by decide)
  · exact (hd (lit "doc3")).1 (by decide)

/-- C1 as stated fails: a shard result with `Count` 0 and the data doc1:3 has
non-empty data, so the stated total of doc1 is 3, but `getResultsMap` skips
the result and doc1 is not a key of the merged mapping. -/
theorem getResultsMap_skips_uncounted_data :
    nonEmptyDataTotal [⟨0, [⟨lit "doc1", 3⟩]⟩, ⟨0, []⟩, ⟨0, []⟩] (lit "doc1") = some 3 ∧
    (getResultsMap ⟨lit "A", lit "N", lit "O"⟩
      [⟨0, [⟨lit "doc1", 3⟩]⟩, ⟨0, []⟩, ⟨0, []⟩]).map (fun m => m.get? (lit "doc1"))
      = some none := by
  decide

end Concierge

/-! ## Document tokenizer -/

namespace utf8

theorem runesAux_ne_nil (fuel : Nat) (s : GoString) :
    ∀ r ∈ runesAux fuel s, r.2 ≠ [] := by
  induction fuel generalizing s with
  | zero => simp [runesAux]
  | succ fuel ih =>
    cases s with
    | nil => simp [runesAux]
    | cons b rest =>
      intro r hr
      simp only [runesAux, List.mem_cons] at hr
      rcases hr with hr | hr
      · subst hr; simp
      · exact ih _ r hr

theorem runesAux_bytes (fuel : Nat) (s : GoString) (h : s.length ≤ fuel) :
    (runesAux fuel s).flatMap Prod.snd = s := by
  induction fuel generalizing s with
  | zero =>
    have : s = [] := List.length_eq_zero.1 (Nat.le_zero.1 h)
    subst this
    rfl
  | succ fuel ih =>
    cases s with
    | nil => rfl
    | cons b rest =>
      simp only [runesAux, List.flatMap_cons, List.cons_append]
      rw [ih]
      · rw [List.take_append_drop]
      · simp only [List.length_cons, List.length_drop] at h ⊢
        omega

/-- The runes of a string cover the string: the fuel of `runes` is enough. -/
theorem runes_bytes (s : GoString) : (runes s).flatMap Prod.snd = s :=
  runesAux_bytes s.length s (Nat.le_refl _)

end utf8

namespace strings

/-- `TrimSpace` leaves nothing exactly of the lines that are empty or made of
white space only. -/
theorem TrimSpace_eq_nil_iff (s : GoString) :
    TrimSpace s = [] ↔ (utf8.runes s).all (fun r => unicode.IsSpace r.1) = true := by
  unfold TrimSpace bytesOf
  rw [List.all_eq_true]
  constructor
  · intro h
    by_contra hall
    have h1 : (utf8.runes s).dropWhile (fun r => unicode.IsSpace r.1) ≠ [] := by
      intro e
      exact hall (List.dropWhile_eq_nil_iff.1 e)
    obtain ⟨x, l, hx⟩ := List.exists_cons_of_ne_nil h1
    have hxp : ¬ unicode.IsSpace x.1 = true := by
      have := List.head_dropWhile_not (fun r : Nat × GoString => unicode.IsSpace r.1)
        (utf8.runes s) h1
      simp only [hx, List.head_cons] at this
      simpa using this
    have hmem : x ∈ ((utf8.runes s).dropWhile (fun r => unicode.IsSpace r.1)).reverse.dropWhile
        (fun r => unicode.IsSpace r.1) := by
      rw [hx, List.reverse_cons, List.dropWhile_append]
      split
      · rename_i hn
        simp [List.dropWhile_cons, hxp]
      · exact List.mem_append_right _ (by simp [List.dropWhile_cons, hxp])
    have hsub : x ∈ utf8.runes s := by
      have : x ∈ (utf8.runes s).dropWhile (fun r => unicode.IsSpace r.1) := by
        rw [hx]; exact List.mem_cons_self _ _
      exact (List.dropWhile_sublist _).subset this
    have hz := (List.flatMap_eq_nil_iff.1 h) x (List.mem_reverse.2 hmem)
    exact utf8.runesAux_ne_nil _ _ x hsub hz
  · intro hall
    rw [List.dropWhile_eq_nil_iff.2 hall]
    rfl

end strings

namespace Concierge

theorem foldl_processWord (SimplifyToken : GoString → GoString × Bool)
    (lineData : lineProcessData) (words : List GoString) (n : Nat) (out : Sent) :
    words.foldl (processWord SimplifyToken lineData) ((n : Int), out) =
      (((n + (words.filterMap
          (fun w => if (SimplifyToken w).2 then some (SimplifyToken w).1 else none)).length
          : Nat) : Int),
        { lStoreCh := out.lStoreCh,
          iAddCh := out.iAddCh ++ ((words.filterMap
            (fun w => if (SimplifyToken w).2 then some (SimplifyToken w).1 else none)).enumFrom
              n).map (occurrence lineData) }) := by
  induction words generalizing n out with
  | nil => simp
  | cons w words ih =>
    rw [List.foldl_cons]
    by_cases hv : (SimplifyToken w).2 = true
    · have hstep : processWord SimplifyToken lineData ((n : Int), out) w =
          (((n + 1 : Nat) : Int), { lStoreCh := out.lStoreCh, iAddCh := out.iAddCh ++
            [occurrence lineData (n, (SimplifyToken w).1)] }) := by
        simp [processWord, hv, occurrence]
      rw [hstep, ih]
      simp only [List.filterMap_cons, hv, if_true, List.length_cons, List.enumFrom_cons,
        List.map_cons, List.append_assoc, List.singleton_append]
      congr 2
      omega
    · have hstep : processWord SimplifyToken lineData ((n : Int), out) w = ((n : Int), out) := by
        simp [processWord, hv]
      rw [hstep, ih]
      simp only [List.filterMap_cons, hv]
      rfl

theorem processLine_eq (SimplifyToken : GoString → GoString × Bool)
    (lineData : lineProcessData) (out : Sent) :
    processLine SimplifyToken lineData out =
      { lStoreCh := out.lStoreCh ++ [⟨lineData.LineIndex, lineData.DocID, lineData.Line⟩],
        iAddCh := out.iAddCh ++
          (validTokens SimplifyToken lineData.Line).enum.map (occurrence lineData) } := by
  unfold processLine
  have := foldl_processWord SimplifyToken lineData (strings.Fields lineData.Line) 0
    { out with lStoreCh := out.lStoreCh ++
      [{ LIndex := lineData.LineIndex, Line := lineData.Line, DocID := lineData.DocID }] }
  simp only [Nat.cast_zero] at this
  simp only [this, validTokens, List.enum_eq_enumFrom]

/-- C5: the occurrences `processLine` sends to the index queue are the
normalized tokens of exactly the whitespace-delimited words of the line that
the normalizer flags valid, in word order; the j-th of them (from 0) carries
tokenIndex j with the lineIndex, documentId and title of the line; an invalid
word sends nothing and does not advance the counter.  With a normalizer that
rejects "the", the line "the cat  the dog" of index 3 sends "cat" with
tokenIndex 0 and "dog" with tokenIndex 1. -/
theorem processLine_emits_valid_tokens (SimplifyToken : GoString → GoString × Bool)
    (lineData : lineProcessData) (out : Sent) :
    (processLine SimplifyToken lineData out).iAddCh =
      out.iAddCh ++ ((strings.Fields lineData.Line).filterMap
        (fun w => if (SimplifyToken w).2 then some (SimplifyToken w).1 else none)).enum.map
        (fun jt => { Token := jt.2, LIndex := lineData.LineIndex, Line := lineData.Line,
                     Index := (jt.1 : Int), DocID := lineData.DocID,
                     Title := lineData.Title }) ∧
    (processLine (fun w => (w, decide (w ≠ lit "the")))
        ⟨3, lit "the cat  the dog", lit "d", lit "T"⟩ ⟨[], []⟩).iAddCh =
      [⟨lit "the cat  the dog", lit "cat", lit "T", lit "d", 3, 0⟩,
       ⟨lit "the cat  the dog", lit "dog", lit "T", lit "d", 3, 1⟩] := by
  constructor
  · rw [processLine_eq]
    rfl
  · decide

theorem foldl_processDocLine (SimplifyToken : GoString → GoString × Bool) (doc : document)
    (lines : List GoString) (n : Nat) (out : Sent) :
    lines.foldl (processDocLine SimplifyToken doc) ((n : Int), out) =
      (((n + (lines.filter (fun l => !whitespaceOnly l)).length : Nat) : Int),
        { lStoreCh := out.lStoreCh ++
            ((lines.filter (fun l => !whitespaceOnly l)).enumFrom n).map
              (fun il => ⟨(il.1 : Int), doc.DocID, il.2⟩),
          iAddCh := out.iAddCh ++
            ((lines.filter (fun l => !whitespaceOnly l)).enumFrom n).flatMap
              (fun il => (validTokens SimplifyToken il.2).enum.map
                (occurrence (keptLine doc il))) }) := by
  induction lines generalizing n out with
  | nil => simp
  | cons l lines ih =>
    rw [List.foldl_cons]
    by_cases hb : whitespaceOnly l = true
    · have hstep : processDocLine SimplifyToken doc ((n : Int), out) l = ((n : Int), out) := by
        have : strings.TrimSpace l = [] := (strings.TrimSpace_eq_nil_iff l).2 hb
        simp [processDocLine, this]
      rw [hstep, ih]
      simp only [List.filter_cons, hb, Bool.not_true]
      rfl
    · have hne : ¬ strings.TrimSpace l = [] :=
        fun e => hb ((strings.TrimSpace_eq_nil_iff l).1 e)
      have hstep : processDocLine SimplifyToken doc ((n : Int), out) l =
          (((n + 1 : Nat) : Int), processLine SimplifyToken (keptLine doc (n, l)) out) := by
        simp [processDocLine, hne, keptLine]
      rw [hstep, ih, processLine_eq]
      simp only [Bool.not_eq_true] at hb
      simp only [List.filter_cons, hb, Bool.not_false, if_true, List.length_cons,
        List.enumFrom_cons, List.map_cons, List.flatMap_cons, List.append_assoc,
        List.singleton_append, keptLine]
      congr 2
      omega

theorem processLinesInDoc_eq (SimplifyToken : GoString → GoString × Bool) (doc : document)
    (out : Sent) :
    processLinesInDoc SimplifyToken doc out =
      { lStoreCh := out.lStoreCh ++
          (keptLines doc.Doc).enum.map (fun il => ⟨(il.1 : Int), doc.DocID, il.2⟩),
        iAddCh := out.iAddCh ++
          (keptLines doc.Doc).enum.flatMap
            (fun il => (validTokens SimplifyToken il.2).enum.map
              (occurrence (keptLine doc il))) } := by
  unfold processLinesInDoc
  have := foldl_processDocLine SimplifyToken doc (strings.Split doc.Doc '\n'.toUInt8) 0 out
  simp only [Nat.cast_zero] at this
  simp only [this, keptLines, List.enum_eq_enumFrom]

/-- C4: the lines `processLinesInDoc` sends to the line store are exactly the
newline-separated lines of the content that are not empty or whitespace-only,
in source order and with their text unchanged, and the i-th of them (from 0)
is sent with lineIndex i under the id of the document: blank lines take no
index.  Once the line store has taken these lines, whatever it held before,
its `Get` for the document and the index i returns the i-th such line.  The
lines "hello", "", "world" give 0: "hello", 1: "world". -/
theorem processLinesInDoc_stores_kept_lines (SimplifyToken : GoString → GoString × Bool)
    (doc : document) (out : Sent) (store : GoMap GoString GoString) :
    (processLinesInDoc SimplifyToken doc out).lStoreCh =
      out.lStoreCh ++
        ((strings.Split doc.Doc '\n'.toUInt8).filter (fun l => !whitespaceOnly l)).enum.map
          (fun il => ⟨(il.1 : Int), doc.DocID, il.2⟩) ∧
    (∀ (i : Nat) (l : GoString),
      ((strings.Split doc.Doc '\n'.toUInt8).filter (fun l => !whitespaceOnly l))[i]? = some l →
      lineStoreGet (lineStoreAll (processLinesInDoc SimplifyToken doc ⟨[], []⟩).lStoreCh store)
        doc.DocID (i : Int) = l) ∧
    (processLinesInDoc SimplifyToken ⟨lit "hello\n\nworld", lit "T", lit "d", lit "u"⟩
        ⟨[], []⟩).lStoreCh
      = [⟨0, lit "d", lit "hello"⟩, ⟨1, lit "d", lit "world"⟩] := by
  refine ⟨?_, ?_, ?_⟩
  · rw [processLinesInDoc_eq]
    rfl
  · intro i l h
    rw [processLinesInDoc_eq]
    have := lineStoreGet_lineStoreAll_enumFrom doc.DocID _ 0 store i l h
    simpa [keptLines, List.enum_eq_enumFrom] using this
  · rw [processLinesInDoc_eq]
    show ([] : List lMeta) ++ (keptLines (lit "hello\n\nworld")).enum.map
      (fun il => (⟨(il.1 : Int), lit "d", il.2⟩ : lMeta)) = _
    decide

end Concierge

/-! ## Token catalog -/

namespace GoMap

theorem sum_entries_split {κ ν : Type} [DecidableEq κ] (f : ν → Nat) (k : κ) :
    ∀ (l : List (κ × ν)), (l.map Prod.fst).Nodup →
      (l.map (fun e => f e.2)).sum =
        (((l.find? (fun e => decide (e.1 = k))).map (fun e => f e.2)).getD 0) +
          ((l.filter (fun e => decide (e.1 ≠ k))).map (fun e => f e.2)).sum
  | [], _ => by simp
  | e :: l, hl => by
    rw [List.map_cons, List.nodup_cons] at hl
    by_cases he : e.1 = k
    · have hfil : l.filter (fun x => !decide (x.1 = k)) = l := by
        apply List.filter_eq_self.2
        intro x hx
        simp only [Bool.not_eq_true', decide_eq_false_iff_not]
        intro hxk
        exact hl.1 (by rw [he, ← hxk]; exact List.mem_map_of_mem Prod.fst hx)
      simp [List.find?_cons, List.filter_cons, he, hfil]
    · have ih := sum_entries_split f k l hl.2
      simp only [List.map_cons, List.sum_cons, List.find?_cons, he, decide_False,
        List.filter_cons, ne_eq, not_false_eq_true, decide_True, if_true, ih]
      omega

end GoMap

namespace Librarian

theorem positions_after_append (doc : document) (l : Int) (tin : tIndex) :
    ((doc.Indices.set l (doc.Indices.getD l [] ++ [tin])).entries.map
      (fun e => e.2.length)).sum = positions doc + 1 := by
  have h := GoMap.sum_entries_split (fun v : List tIndex => v.length) l doc.Indices.entries
    doc.Indices.nodup
  unfold positions
  rw [h]
  simp only [GoMap.set, GoMap.getD, GoMap.get?, List.map_cons, List.sum_cons,
    List.length_append, List.length_singleton]
  cases List.find? (fun e => decide (e.1 = l)) doc.Indices.entries with
  | none => simp; omega
  | some e => simp; omega

/-- The count and the number of recorded positions of the entry of
(token, document). -/
theorem entry_increaseDocumentScore (p : tPayload) (store : tCatalog) (t d : GoString) :
    (entry (increaseDocumentScore p store) t d).map (fun doc => (doc.Count, positions doc)) =
      if p.Token = t ∧ p.DocID = d then
        some ((((entry store t d).map (fun doc => (doc.Count, positions doc))).getD (0, 0)).1 + 1,
          (((entry store t d).map (fun doc => (doc.Count, positions doc))).getD (0, 0)).2 + 1)
      else (entry store t d).map (fun doc => (doc.Count, positions doc)) := by
  unfold increaseDocumentScore entry
  by_cases ht : p.Token = t
  · subst ht
    simp only [GoMap.get?_set_self, Option.some_bind, true_and]
    by_cases hd : p.DocID = d
    · subst hd
      simp only [GoMap.get?_set_self, Option.map_some', if_true, positions,
        positions_after_append]
      cases hs : store.get? p.Token with
      | none =>
        simp [getDocumentCatalog, getDocumentForDocID, hs, GoMap.get?_empty, positions,
          GoMap.entries_empty]
      | some dc =>
        cases hdc : dc.get? p.DocID with
        | none =>
          simp [getDocumentCatalog, getDocumentForDocID, hs, hdc, positions,
            GoMap.entries_empty]
        | some doc =>
          simp [getDocumentCatalog, getDocumentForDocID, hs, hdc, positions]
    · have hd' : d ≠ p.DocID := fun e => hd e.symm
      simp only [hd, if_false]
      rw [GoMap.get?_set_ne _ _ hd']
      cases hs : store.get? p.Token with
      | none =>
        simp [getDocumentCatalog, getDocumentForDocID, hs, GoMap.get?_empty,
          GoMap.get?_set_ne _ _ hd']
      | some dc =>
        cases hdc : dc.get? p.DocID with
        | none =>
          simp [getDocumentCatalog, getDocumentForDocID, hs, hdc, GoMap.get?_set_ne _ _ hd']
        | some doc =>
          simp [getDocumentCatalog, getDocumentForDocID, hs, hdc]
  · have ht' : t ≠ p.Token := fun e => ht e.symm
    simp only [ht, false_and, if_false]
    rw [GoMap.get?_set_ne _ _ ht']
    cases hs : store.get? p.Token with
    | none => simp [getDocumentCatalog, hs, GoMap.get?_set_ne _ _ ht']
    | some dc => simp [getDocumentCatalog, hs]

theorem entry_indexAll (ps : List tPayload) (store : tCatalog) (t d : GoString) :
    (entry (indexAll ps store) t d).map (fun doc => (doc.Count, positions doc)) =
      if occurrences ps t d = 0 then
        (entry store t d).map (fun doc => (doc.Count, positions doc))
      else
        some ((((entry store t d).map (fun doc => (doc.Count, positions doc))).getD (0, 0)).1
            + (occurrences ps t d : Int),
          (((entry store t d).map (fun doc => (doc.Count, positions doc))).getD (0, 0)).2
            + occurrences ps t d) := by
  induction ps generalizing store with
  | nil => simp [indexAll, occurrences]
  | cons p ps ih =>
    have hfold : indexAll (p :: ps) store = indexAll ps (increaseDocumentScore p store) := rfl
    rw [hfold, ih, entry_increaseDocumentScore]
    by_cases hm : p.Token = t ∧ p.DocID = d
    · have hocc : occurrences (p :: ps) t d = occurrences ps t d + 1 := by
        simp [occurrences, List.countP_cons, hm]
      rw [hocc, if_pos hm]
      by_cases h0 : occurrences ps t d = 0
      · simp [h0]
      · simp only [h0, if_false, Option.getD_some, Nat.add_eq_zero, and_false, Nat.cast_add,
          Nat.cast_one]
        congr 1
        ext
        · simp only; omega
        · simp only; omega
    · have hocc : occurrences (p :: ps) t d = occurrences ps t d := by
        simp [occurrences, List.countP_cons, hm]
      rw [hocc, if_neg hm]

end Librarian

namespace Librarian

theorem entry_indexAll_empty (ps : List tPayload) (t d : GoString) :
    (occurrences ps t d = 0 → entry (indexAll ps GoMap.empty) t d = none) ∧
    (occurrences ps t d ≠ 0 →
      ∃ doc : document, entry (indexAll ps GoMap.empty) t d = some doc ∧
        doc.Count = (occurrences ps t d : Int) ∧ positions doc = occurrences ps t d) := by
  have h := entry_indexAll ps GoMap.empty t d
  have he : entry (GoMap.empty : tCatalog) t d = none := rfl
  rw [he] at h
  refine ⟨?_, ?_⟩
  · intro h0
    rw [if_pos h0] at h
    simpa using h
  · intro h0
    rw [if_neg h0] at h
    cases hdoc : entry (indexAll ps GoMap.empty) t d with
    | none => rw [hdoc] at h; simp at h
    | some doc =>
      rw [hdoc] at h
      simp only [Option.map_some', Option.map_none', Option.getD_none, zero_add, Option.some.injEq,
        Prod.mk.injEq] at h
      exact ⟨doc, rfl, h.1, h.2⟩

end Librarian

/-! ## Index poster -/

namespace encodingJson

theorem roundTrip_cons (b : UInt8) (rest : GoString) :
    ∃ tail : GoString, roundTrip (b :: rest) = b :: tail ∨
      (0x80 ≤ b.toNat ∧ roundTrip (b :: rest) = 0xEF :: tail) := by
  unfold roundTrip utf8.runes
  simp only [List.length_cons, utf8.runesAux, List.flatMap_cons]
  split
  · rename_i hc
    refine ⟨_, Or.inr ⟨?_, rfl⟩⟩
    by_contra hlt
    have hb : b.toNat < 0x80 := by omega
    have hd : utf8.DecodeRune (b :: rest) = (b.toNat, 1) := by
      simp [utf8.DecodeRune, hb]
    have h1 := hc.1
    rw [hd] at h1
    simp only [utf8.RuneError] at h1
    omega
  · exact ⟨_, Or.inl rfl⟩

theorem roundTrip_ne_nil {w : GoString} (hw : w ≠ []) : roundTrip w ≠ [] := by
  cases w with
  | nil => exact absurd rfl hw
  | cons b rest =>
    obtain ⟨tail, h | h⟩ := roundTrip_cons b rest
    · rw [h]; simp
    · rw [h.2]; simp

end encodingJson

namespace Concierge

theorem getTokIndexer_of_high (env : Env) (b : UInt8) (rest : GoString) (hb : 0x80 ≤ b.toNat) :
    getTokIndexer env (b :: rest) = .ok (env.LIB_OTHERS ++ lit "/index") := by
  have ha : 'a'.toNat = 97 := rfl
  have hm : 'm'.toNat = 109 := rfl
  have hn : 'n'.toNat = 110 := rfl
  have hz : 'z'.toNat = 122 := rfl
  have h1 : ¬ ('a'.toNat ≤ b.toNat ∧ b.toNat ≤ 'm'.toNat) := by
    rw [ha, hm]; omega
  have h2 : ¬ ('n'.toNat ≤ b.toNat ∧ b.toNat ≤ 'z'.toNat) := by
    rw [hn, hz]; omega
  simp only [getTokIndexer, endpoints_others, ge_iff_le, h1, h2, if_false]

/-- The endpoint of a token is the endpoint of the token the librarian
reads from its JSON form. -/
theorem getTokIndexer_roundTrip (env : Env) {w : GoString} (hw : w ≠ []) :
    getTokIndexer env (encodingJson.roundTrip w) = getTokIndexer env w := by
  cases w with
  | nil => exact absurd rfl hw
  | cons b rest =>
    obtain ⟨tail, h | h⟩ := encodingJson.roundTrip_cons b rest
    · rw [h]; rfl
    · rw [h.2, getTokIndexer_of_high env b rest h.1]
      exact getTokIndexer_of_high env 0xEF tail (by decide)

theorem getTokIndexer_ok_of_ne_nil (env : Env) {w : GoString} (hw : w ≠ []) :
    getTokIndexer env w = .ok (indexerURL env w) := by
  cases w with
  | nil => exact absurd rfl hw
  | cons b rest => rfl

theorem indexAdder_eq (env : Env) (toks : List token) (h : ∀ tok ∈ toks, tok.Token ≠ []) :
    indexAdder env toks =
      .ok (toks.map (fun tok => (indexerURL env tok.Token, wirePayload tok))) := by
  induction toks with
  | nil => rfl
  | cons tok toks ih =>
    have h1 := getTokIndexer_ok_of_ne_nil env (h tok (List.mem_cons_self _ _))
    have h2 := ih (fun x hx => h x (List.mem_cons_of_mem _ hx))
    simp only [indexAdder, postToLibrarian, h1, h2, List.map_cons]

theorem processLinesInDoc_tokens (SimplifyToken : GoString → GoString × Bool) (doc : document) :
    (processLinesInDoc SimplifyToken doc ⟨[], []⟩).iAddCh.map (fun tok => tok.Token) =
      (keptLines doc.Doc).flatMap (validTokens SimplifyToken) := by
  rw [processLinesInDoc_eq]
  simp only [List.nil_append, List.map_flatMap, List.map_map]
  have hin : ∀ il : Nat × GoString,
      List.map ((fun tok : token => tok.Token) ∘ occurrence (keptLine doc il))
        (validTokens SimplifyToken il.2).enum = validTokens SimplifyToken il.2 := by
    intro il
    have : ((fun tok : token => tok.Token) ∘ occurrence (keptLine doc il)) = Prod.snd := by
      funext jt; rfl
    rw [this, List.enum_map_snd]
  simp only [hin]
  have := List.flatMap_map (Prod.snd : Nat × GoString → GoString) (validTokens SimplifyToken)
    (keptLines doc.Doc).enum
  rw [List.enum_map_snd] at this
  exact this.symm

theorem processLinesInDoc_docID (SimplifyToken : GoString → GoString × Bool) (doc : document) :
    ∀ tok ∈ (processLinesInDoc SimplifyToken doc ⟨[], []⟩).iAddCh, tok.DocID = doc.DocID := by
  rw [processLinesInDoc_eq]
  intro tok htok
  simp only [List.nil_append, List.mem_flatMap, List.mem_map] at htok
  obtain ⟨il, _, jt, _, rfl⟩ := htok
  rfl

end Concierge

namespace Librarian

theorem occurrences_shard_le (env : Concierge.Env) (toks : List Concierge.token)
    (t d u : GoString) :
    occurrences (postedTo u (toks.map (fun tok => (Concierge.indexerURL env tok.Token,
        Concierge.wirePayload tok)))) t d ≤
      (toks.map (fun tok => tok.Token)).countP
        (fun w => decide (encodingJson.roundTrip w = t)) := by
  unfold occurrences postedTo
  rw [List.countP_map, List.countP_filter, List.countP_map, List.countP_map]
  apply List.countP_mono_left
  intro tok _ h
  simp only [Function.comp, Concierge.wirePayload, Bool.and_eq_true, decide_eq_true_eq] at h ⊢
  exact h.1.1

theorem occurrences_shard_eq (env : Concierge.Env) (toks : List Concierge.token)
    (t d0 u : GoString) (hne : ∀ tok ∈ toks, tok.Token ≠ [])
    (hd : ∀ tok ∈ toks, tok.DocID = d0) (hu : Concierge.getTokIndexer env t = .ok u) :
    occurrences (postedTo u (toks.map (fun tok => (Concierge.indexerURL env tok.Token,
        Concierge.wirePayload tok)))) t (encodingJson.roundTrip d0) =
      (toks.map (fun tok => tok.Token)).countP
        (fun w => decide (encodingJson.roundTrip w = t)) := by
  unfold occurrences postedTo
  rw [List.countP_map, List.countP_filter, List.countP_map, List.countP_map]
  apply List.countP_congr
  intro tok htok
  simp only [Function.comp, Concierge.wirePayload, Bool.and_eq_true, decide_eq_true_eq]
  constructor
  · intro h
    exact h.1.1
  · intro h
    refine ⟨⟨h, by rw [hd tok htok]⟩, ?_⟩
    have h1 := Concierge.getTokIndexer_ok_of_ne_nil env (hne tok htok)
    have h2 := Concierge.getTokIndexer_roundTrip env (hne tok htok)
    rw [h, hu, h1] at h2
    cases h2
    rfl

end Librarian

namespace Librarian

theorem occurrences_perm {ps qs : List tPayload} (h : ps.Perm qs) (t d : GoString) :
    occurrences ps t d = occurrences qs t d :=
  h.countP_eq _

/-- C6 (amended): in the catalog reached from the empty catalog by
`increaseDocumentScore` on any sequence of occurrences, the entry of a token
`t` and a document `d` exists exactly when the sequence has an occurrence of
`t` in `d`, its `Count` is the number k of such occurrences and the positions
recorded over all lines of `Indices` are k in all.  In particular, when no
token that tokenizing one document emits is empty, the index poster delivers
every occurrence, and for a token `t` as the librarian reads it from the JSON
body (invalid UTF-8 bytes replaced by U+FFFD), in whatever order the posts
arrive, the shard `t` is routed to holds an entry of `t` and the document
with `Count` k and k positions, k the number of emitted tokens read as `t`;
no shard holds one when k = 0; and k is the number of times `t` is among the
valid tokens of the document when every emitted token is read back
unchanged. -/
theorem catalog_counts_occurrences (ps : List tPayload) (t d : GoString)
    (env : Concierge.Env) (SimplifyToken : GoString → GoString × Bool)
    (cdoc : Concierge.document) :
    ((occurrences ps t d = 0 → entry (indexAll ps GoMap.empty) t d = none) ∧
     (occurrences ps t d ≠ 0 →
      ∃ doc : document, entry (indexAll ps GoMap.empty) t d = some doc ∧
        doc.Count = (occurrences ps t d : Int) ∧ positions doc = occurrences ps t d)) ∧
    ([] ∉ (Concierge.keptLines cdoc.Doc).flatMap (Concierge.validTokens SimplifyToken) →
      ∃ posts : List (GoString × tPayload),
        Concierge.indexAdder env
          (Concierge.processLinesInDoc SimplifyToken cdoc ⟨[], []⟩).iAddCh = .ok posts ∧
        (((Concierge.keptLines cdoc.Doc).flatMap (Concierge.validTokens SimplifyToken)).countP
            (fun w => decide (encodingJson.roundTrip w = t)) = 0 →
          ∀ (u : GoString) (arrived : List tPayload), arrived.Perm (postedTo u posts) →
            entry (indexAll arrived GoMap.empty) t (encodingJson.roundTrip cdoc.DocID) = none) ∧
        (((Concierge.keptLines cdoc.Doc).flatMap (Concierge.validTokens SimplifyToken)).countP
            (fun w => decide (encodingJson.roundTrip w = t)) ≠ 0 →
          ∃ u : GoString, Concierge.getTokIndexer env t = .ok u ∧
            ∀ arrived : List tPayload, arrived.Perm (postedTo u posts) →
              ∃ doc : document,
                entry (indexAll arrived GoMap.empty) t (encodingJson.roundTrip cdoc.DocID)
                  = some doc ∧
                doc.Count = ((((Concierge.keptLines cdoc.Doc).flatMap
                  (Concierge.validTokens SimplifyToken)).countP
                    (fun w => decide (encodingJson.roundTrip w = t)) : Nat) : Int) ∧
                positions doc = ((Concierge.keptLines cdoc.Doc).flatMap
                  (Concierge.validTokens SimplifyToken)).countP
                    (fun w => decide (encodingJson.roundTrip w = t))) ∧
        ((∀ w ∈ (Concierge.keptLines cdoc.Doc).flatMap (Concierge.validTokens SimplifyToken),
            encodingJson.roundTrip w = w) →
          ((Concierge.keptLines cdoc.Doc).flatMap (Concierge.validTokens SimplifyToken)).countP
            (fun w => decide (encodingJson.roundTrip w = t)) =
          ((Concierge.keptLines cdoc.Doc).flatMap
            (Concierge.validTokens SimplifyToken)).count t)) := by
  refine ⟨entry_indexAll_empty ps t d, ?_⟩
  intro hnil
  have htoks := Concierge.processLinesInDoc_tokens SimplifyToken cdoc
  have hdoc := Concierge.processLinesInDoc_docID SimplifyToken cdoc
  have hne : ∀ tok ∈ (Concierge.processLinesInDoc SimplifyToken cdoc ⟨[], []⟩).iAddCh,
      tok.Token ≠ [] := by
    intro tok htok he
    apply hnil
    rw [← htoks, ← he]
    exact List.mem_map_of_mem (fun tok : Concierge.token => tok.Token) htok
  refine ⟨_, Concierge.indexAdder_eq env _ hne, ?_, ?_, ?_⟩
  · intro h0 u arrived harr
    have hle := occurrences_shard_le env
      (Concierge.processLinesInDoc SimplifyToken cdoc ⟨[], []⟩).iAddCh t
      (encodingJson.roundTrip cdoc.DocID) u
    rw [htoks, h0, ← occurrences_perm harr] at hle
    exact (entry_indexAll_empty _ t _).1 (Nat.le_zero.1 hle)
  · intro h0
    obtain ⟨w, hw, hwt⟩ := List.countP_pos_iff.1 (Nat.pos_of_ne_zero h0)
    have hwt' : encodingJson.roundTrip w = t := by simpa using hwt
    have hwne : w ≠ [] := fun e => hnil (e ▸ hw)
    have htne : t ≠ [] := hwt' ▸ encodingJson.roundTrip_ne_nil hwne
    have hu := Concierge.getTokIndexer_ok_of_ne_nil env htne
    refine ⟨_, hu, ?_⟩
    intro arrived harr
    have heq := occurrences_shard_eq env
      (Concierge.processLinesInDoc SimplifyToken cdoc ⟨[], []⟩).iAddCh t cdoc.DocID
      (Concierge.indexerURL env t) hne hdoc hu
    rw [htoks, ← occurrences_perm harr] at heq
    obtain ⟨doc, h1, h2, h3⟩ := (entry_indexAll_empty _ t _).2 (by rw [heq]; exact h0)
    rw [heq] at h2 h3
    exact ⟨doc, h1, h2, h3⟩
  · intro hall
    rw [List.count_eq_countP]
    apply List.countP_congr
    intro w hw
    simp only [decide_eq_true_eq, beq_iff_eq, hall w hw]

/-- Witness of C6: the document "a b a" with a normalizer that keeps every
word; the token "a" is read as "a" twice. -/
theorem catalog_counts_occurrences_witness :
    ∃ posts : List (GoString × tPayload),
      Concierge.indexAdder ⟨lit "A", lit "N", lit "O"⟩
        (Concierge.processLinesInDoc (fun w => (w, true))
          ⟨lit "a b a", lit "T", lit "d", lit "u"⟩ ⟨[], []⟩).iAddCh = .ok posts ∧
      ∃ doc : document,
        entry (shardCatalog (lit "A/index") posts) (lit "a") (lit "d") = some doc ∧
        doc.Count = 2 ∧ positions doc = 2 := by
  obtain ⟨posts, hposts, _, h, _⟩ :=
    (catalog_counts_occurrences [] (lit "a") (lit "d") ⟨lit "A", lit "N", lit "O"⟩
      (fun w => (w, true)) ⟨lit "a b a", lit "T", lit "d", lit "u"⟩).2 (by decide)
  obtain ⟨u, hu, harr⟩ := h (by decide)
  have hu' : u = lit "A/index" := by
    have : Concierge.getTokIndexer ⟨lit "A", lit "N", lit "O"⟩ (lit "a") =
        .ok (lit "A/index") := by decide
    rw [this] at hu
    cases hu
    rfl
  subst hu'
  obtain ⟨doc, hdoc, hc, hp⟩ := harr _ (List.Perm.refl _)
  have hk : ((Concierge.keptLines (lit "a b a")).flatMap
      (Concierge.validTokens (fun w => (w, true)))).countP
        (fun w => decide (encodingJson.roundTrip w = lit "a")) = 2 := by decide
  have hd : encodingJson.roundTrip (lit "d") = lit "d" := by decide
  refine ⟨posts, hposts, doc, ?_, ?_, ?_⟩
  · rw [← hd]; exact hdoc
  · rw [hc]; exact congrArg Nat.cast hk
  · rw [hp]; exact hk

/-- C6 as stated fails on the way from the tokenizer to the catalog: in the
document "\xa0 ok \x85" the token of the one byte A0 is a valid token once,
the index poster delivers every occurrence, and no shard has an entry of that
token and the document; the shard "other" counts two occurrences under the
token U+FFFD, which is no token of the document. -/
theorem catalog_misses_token_of_invalid_utf8 :
    ((Concierge.keptLines [0xA0, 0x20, 0x6F, 0x6B, 0x20, 0x85]).flatMap
      (Concierge.validTokens (fun w => (w, true)))).count [0xA0] = 1 ∧
    ((Concierge.keptLines [0xA0, 0x20, 0x6F, 0x6B, 0x20, 0x85]).flatMap
      (Concierge.validTokens (fun w => (w, true)))).count [0xEF, 0xBF, 0xBD] = 0 ∧
    (Concierge.indexAdder ⟨lit "A", lit "N", lit "O"⟩
      (Concierge.processLinesInDoc (fun w => (w, true))
        ⟨[0xA0, 0x20, 0x6F, 0x6B, 0x20, 0x85], lit "T", lit "d", lit "u"⟩ ⟨[], []⟩).iAddCh).map
      (fun posts =>
        [(entry (shardCatalog (lit "A/index") posts) [0xA0] (lit "d")).map
            (fun doc => (doc.Count, positions doc)),
         (entry (shardCatalog (lit "N/index") posts) [0xA0] (lit "d")).map
            (fun doc => (doc.Count, positions doc)),
         (entry (shardCatalog (lit "O/index") posts) [0xA0] (lit "d")).map
            (fun doc => (doc.Count, positions doc)),
         (entry (shardCatalog (lit "O/index") posts) [0xEF, 0xBF, 0xBD] (lit "d")).map
            (fun doc => (doc.Count, positions doc))]) =
      .ok [none, none, none, some (2, 2)] := by
  decide

end Librarian

/-! ## Ranking -/

theorem flatMap_filter_perm {α κ : Type} [DecidableEq κ] (key : α → κ) :
    ∀ (L : List κ) (l : List α), L.Nodup → (∀ x ∈ l, key x ∈ L) →
      (L.flatMap (fun s => l.filter (fun x => decide (key x = s)))).Perm l
  | [], l, _, hl => by
    have : l = [] := List.eq_nil_iff_forall_not_mem.2 (fun x hx => by simpa using hl x hx)
    subst this
    exact List.Perm.refl _
  | s :: L, l, hL, hl => by
    rw [List.nodup_cons] at hL
    rw [List.flatMap_cons]
    have hrest : L.flatMap (fun t => l.filter (fun x => decide (key x = t))) =
        L.flatMap (fun t => (l.filter (fun x => !decide (key x = s))).filter
          (fun x => decide (key x = t))) := by
      apply List.flatMap_congr
      intro t ht
      rw [List.filter_filter]
      apply List.filter_congr
      intro x _
      by_cases hx : key x = t
      · have hts : ¬ t = s := fun e => hL.1 (e ▸ ht)
        simp [hx, hts]
      · simp [hx]
    rw [hrest]
    have ih := flatMap_filter_perm key L (l.filter (fun x => !decide (key x = s))) hL.2 (by
      intro x hx
      rw [List.mem_filter] at hx
      have h1 := hl x hx.1
      have h2 : ¬ key x = s := by simpa using hx.2
      rcases List.mem_cons.1 h1 with h | h
      · exact absurd h h2
      · exact h)
    exact (List.Perm.append (List.Perm.refl _) ih).trans (List.filter_append_perm _ l)

namespace Concierge

theorem get?_aggregateStep (store : GoMap GoString document) (sm : GoMap Int (List document))
    (e : GoString × Int) (s : Int) :
    (aggregateStep store sm e).get? s =
      if e.2 = s then some (sm.getD s [] ++ [docStoreGet store e.1]) else sm.get? s := by
  unfold aggregateStep
  by_cases hs : e.2 = s
  · subst hs
    simp only [if_true, GoMap.get?_set_self]
    cases hg : sm.get? e.2 with
    | none => simp [GoMap.getD, GoMap.get?_set_self, hg]
    | some v => simp [GoMap.getD, hg]
  · have hs' : s ≠ e.2 := fun h => hs h.symm
    simp only [hs, if_false]
    rw [GoMap.get?_set_ne _ _ hs']
    split
    · rw [GoMap.get?_set_ne _ _ hs']
    · rfl

theorem get?_foldl_aggregateStep (store : GoMap GoString document) (l : List (GoString × Int))
    (sm : GoMap Int (List document)) (s : Int) :
    (l.foldl (aggregateStep store) sm).get? s =
      if l.filter (fun e => decide (e.2 = s)) = [] then sm.get? s
      else some (sm.getD s [] ++
        (l.filter (fun e => decide (e.2 = s))).map (fun e => docStoreGet store e.1)) := by
  induction l generalizing sm with
  | nil => simp
  | cons e l ih =>
    rw [List.foldl_cons, ih]
    by_cases hs : e.2 = s
    · have hg : (aggregateStep store sm e).getD s [] = sm.getD s [] ++ [docStoreGet store e.1] := by
        simp [GoMap.getD, get?_aggregateStep, hs]
      simp only [List.filter_cons, hs, decide_True, if_true, List.map_cons, hg,
        get?_aggregateStep]
      split
      · rename_i h
        simp [h]
      · simp
    · have hg : (aggregateStep store sm e).getD s [] = sm.getD s [] := by
        simp [GoMap.getD, get?_aggregateStep, hs]
      simp only [List.filter_cons, hs, decide_False, hg, get?_aggregateStep, if_false]
      rfl

theorem getResultsSortedByScore_eq (scores : List Int) (scoreMap : GoMap Int (List document)) :
    getResultsSortedByScore scores scoreMap = scores.flatMap (fun s => scoreMap.getD s []) := by
  unfold getResultsSortedByScore
  have : ∀ (acc : List document),
      scores.foldl (fun sortedResults score => sortedResults ++ scoreMap.getD score []) acc =
        acc ++ scores.flatMap (fun s => scoreMap.getD s []) := by
    induction scores with
    | nil => simp
    | cons s scores ih =>
      intro acc
      simp [List.foldl_cons, ih, List.flatMap_cons]
  simpa using this []

theorem foldl_append_keys {κ ν : Type} (l : List (κ × ν)) :
    l.foldl (fun scores e => scores ++ [e.1]) [] = l.map Prod.fst := by
  have : ∀ (acc : List κ),
      l.foldl (fun scores e => scores ++ [e.1]) acc = acc ++ l.map Prod.fst := by
    induction l with
    | nil => simp
    | cons e l ih =>
      intro acc
      simp [List.foldl_cons, ih]
  simpa using this []

/-- The output of `sortResults` is the store lookups along an enumeration of
the entries of the merged mapping on which the scores do not increase. -/
theorem sortResults_eq (ρ₁ : RangeOrder GoString Int) (ρ₂ : RangeOrder Int (List document))
    (store : GoMap GoString document) (resultsMap : GoMap GoString Int) :
    ∃ kvs : List (GoString × Int), kvs.Perm resultsMap.entries ∧
      sortResults ρ₁ ρ₂ store resultsMap = kvs.map (fun e => docStoreGet store e.1) ∧
      kvs.Pairwise (fun a b => a.2 ≥ b.2) := by
  let ord := resultsMap.range ρ₁
  let scoreMap := aggregateResultsScore ρ₁ store resultsMap
  let sorted := sort.SortReverseInts ((scoreMap.range ρ₂).map Prod.fst)
  have hord : ord.Perm resultsMap.entries := ρ₁.perm _
  have hget : ∀ s, scoreMap.get? s =
      if ord.filter (fun e => decide (e.2 = s)) = [] then none
      else some ((ord.filter (fun e => decide (e.2 = s))).map
        (fun e => docStoreGet store e.1)) := by
    intro s
    show ((resultsMap.range ρ₁).foldl (aggregateStep store) GoMap.empty).get? s = _
    rw [get?_foldl_aggregateStep]
    rfl
  have hperm : sorted.Perm scoreMap.keys :=
    (List.perm_insertionSort _ _).trans ((ρ₂.perm _).map Prod.fst)
  have hnodup : sorted.Nodup := hperm.nodup_iff.2 scoreMap.nodup
  have hsorted : sorted.Pairwise (fun a b => a ≥ b) :=
    List.sorted_insertionSort (fun a b : Int => a ≥ b) _
  have hmem : ∀ e ∈ ord, e.2 ∈ sorted := by
    intro e he
    rw [hperm.mem_iff]
    by_contra hk
    have hnone := (GoMap.get?_eq_none_iff scoreMap e.2).2 hk
    rw [hget] at hnone
    have hne : ord.filter (fun x => decide (x.2 = e.2)) ≠ [] := by
      intro h0
      have : e ∈ ord.filter (fun x => decide (x.2 = e.2)) :=
        List.mem_filter.2 ⟨he, by simp⟩
      rw [h0] at this
      cases this
    rw [if_neg hne] at hnone
    cases hnone
  have hout : sortResults ρ₁ ρ₂ store resultsMap =
      (sorted.flatMap (fun s => ord.filter (fun e => decide (e.2 = s)))).map
        (fun e => docStoreGet store e.1) := by
    show getResultsSortedByScore
      (sort.SortReverseInts ((scoreMap.range ρ₂).foldl (fun scores e => scores ++ [e.1]) []))
      scoreMap = _
    rw [foldl_append_keys, getResultsSortedByScore_eq, List.map_flatMap]
    apply List.flatMap_congr
    intro s _
    simp only [GoMap.getD, hget]
    split
    · rename_i h0
      simp [h0]
    · rfl
  refine ⟨sorted.flatMap (fun s => ord.filter (fun e => decide (e.2 = s))), ?_, hout, ?_⟩
  · exact (flatMap_filter_perm (fun e : GoString × Int => e.2) sorted ord hnodup hmem).trans hord
  · rw [List.pairwise_flatMap]
    constructor
    · intro s _
      rw [List.pairwise_iff_forall_sublist]
      intro a b hab
      have ha : a ∈ ord.filter (fun e => decide (e.2 = s)) := hab.subset (by simp)
      have hb : b ∈ ord.filter (fun e => decide (e.2 = s)) := hab.subset (by simp)
      have ha2 : a.2 = s := by simpa using (List.mem_filter.1 ha).2
      have hb2 : b.2 = s := by simpa using (List.mem_filter.1 hb).2
      rw [ha2, hb2]
    · refine hsorted.imp ?_
      intro s₁ s₂ h12 a ha b hb
      have ha2 : a.2 = s₁ := by simpa using (List.mem_filter.1 ha).2
      have hb2 : b.2 = s₂ := by simpa using (List.mem_filter.1 hb).2
      rw [ha2, hb2]
      exact h12

end Concierge

namespace Concierge

/-- C2: the sequence returned by `sortResults` is ordered highest combined
score first: there is an ordering of the documentIds of the merged mapping
whose store lookups are the output, and along it the total scores do not
increase.  The totals a:3, b:7, c:3 over a store that holds a and b give the
document of b first, then those of the two documents of total 3. -/
theorem sortResults_descending (ρ₁ : RangeOrder GoString Int)
    (ρ₂ : RangeOrder Int (List document)) (store : GoMap GoString document)
    (resultsMap : GoMap GoString Int) :
    (∃ ids : List GoString, ids.Perm resultsMap.keys ∧
      ids.map (docStoreGet store) = sortResults ρ₁ ρ₂ store resultsMap ∧
      ids.Pairwise (fun a b => resultsMap.getD a 0 ≥ resultsMap.getD b 0)) ∧
    sortResults (RangeOrder.stored _ _) (RangeOrder.reversed _ _)
      ((GoMap.empty.set (lit "a") ⟨[], lit "A", lit "a", []⟩).set (lit "b")
        ⟨[], lit "B", lit "b", []⟩)
      (((GoMap.empty.set (lit "a") 3).set (lit "b") 7).set (lit "c") 3) =
      [⟨[], lit "B", lit "b", []⟩, document.zero, ⟨[], lit "A", lit "a", []⟩] := by
  obtain ⟨kvs, hperm, hout, hpw⟩ := sortResults_eq ρ₁ ρ₂ store resultsMap
  refine ⟨⟨kvs.map Prod.fst, hperm.map Prod.fst, ?_, ?_⟩, by decide⟩
  · rw [hout, List.map_map]
    rfl
  · rw [List.pairwise_map]
    refine hpw.imp_of_mem ?_
    intro a b ha hb hab
    have hga : resultsMap.getD a.1 0 = a.2 := by
      simp [GoMap.getD, (GoMap.get?_eq_some_iff resultsMap a.1 a.2).2 (hperm.mem_iff.1 ha)]
    have hgb : resultsMap.getD b.1 0 = b.2 := by
      simp [GoMap.getD, (GoMap.get?_eq_some_iff resultsMap b.1 b.2).2 (hperm.mem_iff.1 hb)]
    rw [hga, hgb]
    exact hab

/-- C10: the sequence returned by `sortResults` has exactly one entry per
documentId of the merged mapping: its length is the number of keys and it is
a permutation of the store lookups of the keys; the empty mapping gives the
empty sequence. -/
theorem sortResults_one_entry_per_key (ρ₁ : RangeOrder GoString Int)
    (ρ₂ : RangeOrder Int (List document)) (store : GoMap GoString document)
    (resultsMap : GoMap GoString Int) :
    (sortResults ρ₁ ρ₂ store resultsMap).length = resultsMap.size ∧
    (sortResults ρ₁ ρ₂ store resultsMap).Perm (resultsMap.keys.map (docStoreGet store)) ∧
    sortResults ρ₁ ρ₂ store GoMap.empty = [] := by
  obtain ⟨kvs, hperm, hout, _⟩ := sortResults_eq ρ₁ ρ₂ store resultsMap
  refine ⟨?_, ?_, ?_⟩
  · rw [hout, List.length_map]
    exact hperm.length_eq
  · rw [hout]
    have := hperm.map (fun e : GoString × Int => docStoreGet store e.1)
    simpa [GoMap.keys, List.map_map, Function.comp_def] using this
  · obtain ⟨kvs0, hperm0, hout0, _⟩ := sortResults_eq ρ₁ ρ₂ store GoMap.empty
    have : kvs0 = [] := List.perm_nil.1 hperm0
    rw [hout0, this]
    rfl

end Concierge

/-! ## Feed handler -/

namespace Concierge

/-- C8: a GET request to `FeedHandler` is not answered with status 200 and
the documents: the method check against "POST" that opens the handler
answers it with 405 and the handler returns before its GET branch, whatever
the store holds; and `returnAllDocs`, were it reached, panics on the nil
error whenever the serialization succeeds. -/
theorem FeedHandler_get_is_405 (json : Json) (ρ : RangeOrder GoString document)
    (st : FeederState) (body : GoString) (enc : List document → GoString)
    (w : http.ResponseWriter) :
    FeedHandler json ρ st http.ResponseWriter.fresh ⟨lit "GET", body⟩ =
      .ok (⟨some 405, lit "\x7b\"code\": 405, \"msg\": \"Method Not Allowed.\"\x7d"⟩, st) ∧
    returnAllDocs ⟨fun ds => (enc ds, none), json.Decode⟩ ρ st.store w =
      .error Panic.nilDereference := by
  constructor
  · rfl
  · rfl

end Concierge

end Goophr
